import Mathlib

/-!
Shallow embedding of the chunked particle store and stepping scheduler of
`parcels/particleset.py` (class `ParticleSet`), together with proofs that
settle the frozen claims about it.

Modelling conventions:
* A particle record is represented by its identity (`pid`); the positional
  and user attributes of a record play no role in any of the indexing,
  bounds-summary or scheduling logic under scrutiny, so they are omitted.
* `_plist` (a Python list of numpy object arrays) becomes `List (List Particle)`;
  `_pid_mapping_bounds` becomes `List (Int × Int × Nat)` of `(min_id, max_id, count)`.
* Failures (IndexError from list/array indexing, AssertionError, numpy
  fancy-indexing errors, a `while` loop that cannot terminate) are modelled
  by `Option`: `none` means the Python operation raises / diverges.
* Python `list.remove(x)` removes the first element equal to `x`; for the
  bounds list (tuples) this is exactly `List.erase`.  For `_plist`
  (numpy arrays) equality comparison of distinct arrays under the
  numpy version this code targets evaluates to `False`, so only the
  identity check fires and the removal is `List.eraseIdx` at the position
  of the emptied chunk.
* The store is modelled in non-JIT mode (`ptype.uses_jit = False`): the
  `_plist_c` mirror list only duplicates the structure of `_plist` and
  carries no information relevant to the claims.
-/

/-- A particle record, represented by its stable identity (`Particle.id` in
the source). -/
structure Particle where
  pid : Int
deriving DecidableEq, Repr

/-- A per-chunk summary `(min_id, max_id, count)`, one entry of
`_pid_mapping_bounds`. -/
abbrev Bounds := Int × Int × Nat

/-- The chunked particle store: `_plist` plus `_pid_mapping_bounds`. -/
structure PState where
  plist : List (List Particle)
  bounds : List Bounds
deriving DecidableEq, Repr

/-- `self.nlist_limit` in the source. -/
def nlist_limit : Nat := 4096

/-- `np.iinfo(np.int32).max`. -/
def int32max : Int := 2147483647

/-- `np.iinfo(np.int32).min`. -/
def int32min : Int := -2147483648

/-- The sentinel summary given to a chunk that is emptied while it is the
only chunk of the store. -/
def sentinelBounds : Bounds := (int32max, int32min, 0)

/-- Identities of the records of a chunk. -/
def chunkIds (c : List Particle) : List Int :=
  c.map Particle.pid

/-- `np.min` over the identities of a (nonempty) chunk; the `[]` case is
junk (numpy raises there, and every caller guards against it). -/
def npMinIds (c : List Particle) : Int :=
  match c with
  | [] => 0
  | p :: ps => ps.foldl (fun a q => min a q.pid) p.pid

/-- `np.max` over the identities of a (nonempty) chunk. -/
def npMaxIds (c : List Particle) : Int :=
  match c with
  | [] => 0
  | p :: ps => ps.foldl (fun a q => max a q.pid) p.pid

/-- The summary recomputed from surviving records, as `_remove_` and
`_merge_brackets_` do: `(np.min(local_ids), np.max(local_ids), shape)`. -/
def recompBounds (c : List Particle) : Bounds :=
  (npMinIds c, npMaxIds c, c.length)

/-- The summary produced by `__init__`: it starts from the sentinel pair and
folds `min`/`max` of each assigned identity into it. -/
def buildBounds (c : List Particle) : Bounds :=
  (c.foldl (fun a p => min a p.pid) int32max,
   c.foldl (fun a p => max a p.pid) int32min,
   c.length)

/-- Split a record list into chunks of at most `nlist_limit` records, as the
`__init__` allocation loop does (fuel-structural so it computes in the
kernel; the fuel is the list length, which always suffices). -/
def chunkifyGo : Nat → List Particle → List (List Particle)
  | 0, _ => []
  | _, [] => []
  | f + 1, l => l.take nlist_limit :: chunkifyGo f (l.drop nlist_limit)

/-- Chunking of the initial record sequence. -/
def chunkify (l : List Particle) : List (List Particle) :=
  chunkifyGo l.length l

/-- `ParticleSet.__init__` restricted to the store it builds: records with
the given identities are laid out in `nlist_limit`-sized chunks and each
chunk gets its running min/max/count summary. -/
def pinit (pids : List Int) : PState :=
  ⟨chunkify (pids.map Particle.mk), (chunkify (pids.map Particle.mk)).map buildBounds⟩

/-- `ParticleSet.add`: chunk sequences and summary lists are concatenated. -/
def padd (s t : PState) : PState :=
  ⟨s.plist ++ t.plist, s.bounds ++ t.bounds⟩

/-- `ParticleSet.size`: the sum of the cached per-chunk counts. -/
def psize (s : PState) : Nat :=
  s.bounds.foldl (fun a b => a + b.2.2) 0

/-- The total number of records actually held. -/
def trueSize (s : PState) : Nat :=
  (s.plist.map List.length).sum

/-- The global-index walk shared verbatim by `get_list_array_index` (int
branch), `__getitem__`, `pop` and `remove`:

    bracket_index = 0; start_index = 0
    end_index = bounds[0].count
    while key >= end_index:
        start_index = end_index
        end_index = start_index + bounds[bracket_index].count
        bracket_index += 1
    slot_index = key - start_index

Note the loop body reads `bounds[bracket_index]` *before* incrementing
`bracket_index`, so the count of the chunk being left is added again in
place of the next chunk's count.  `rem` is `bounds.drop b`; running off its
end models the IndexError the source raises there. -/
def walkLoop : List Bounds → Nat → Int → Int → Int → Option (Nat × Int)
  | rem, b, start, stop, key =>
    if key < stop then some (b, key - start)
    else
      match rem with
      | [] => none
      | c :: rest => walkLoop rest (b + 1) stop (stop + (c.2.2 : Int)) key

/-- `get_list_array_index` on an `int` argument (also the body of
`__getitem__` before the final array access).  Returns the
`(bracket_index, slot_index)` pair the source computes; the pair is *not*
validated against the chunk list. -/
def get_list_array_index_int (bounds : List Bounds) (key : Int) : Option (Nat × Int) :=
  match bounds with
  | [] => none
  | b0 :: _ => walkLoop bounds 0 0 (b0.2.2 : Int) key

/-- Resolve a global index the way the specification describes
`resolve_by_global_index`: walk the chunk sequence accumulating the counts
until the cumulative count exceeds the index; fail on a negative index or
one at or past the total size.  This definition follows the spec's words
and serves as the comparison point for the code's walk. -/
def resolve_by_global_index_spec (bounds : List Bounds) (key : Int) : Option (Nat × Nat) :=
  if key < 0 then none else go bounds 0 key.toNat
where
  go : List Bounds → Nat → Nat → Option (Nat × Nat)
  | [], _, _ => none
  | b :: rest, i, k => if k < b.2.2 then some (i, k) else go rest (i + 1) (k - b.2.2)

/-- Normalize one numpy index against an array length: negative indices wrap
once; anything outside `[-n, n)` is an IndexError. -/
def normLoc (n : Nat) (l : Int) : Option Nat :=
  let j := if l < 0 then (n : Int) + l else l
  if 0 ≤ j ∧ j < (n : Int) then some j.toNat else none

/-- numpy element access `chunk[i]` with a single (possibly negative)
integer index. -/
def npGet (chunk : List Particle) (i : Int) : Option Particle :=
  (normLoc chunk.length i).bind fun j => chunk.get? j

/-- Map a fallible function over a list, failing if any element fails
(`mapM` over `Option`, written structurally). -/
def optMap (f : α → Option β) : List α → Option (List β)
  | [] => some []
  | x :: xs => do
    let y ← f x
    let ys ← optMap f xs
    pure (y :: ys)

/-- numpy fancy indexing `chunk[locs]`: the selected records in the order
the indices are given (duplicates allowed). -/
def npFancy (chunk : List Particle) (locs : List Int) : Option (List Particle) :=
  optMap (fun l => npGet chunk l) locs

/-- `np.delete(chunk, locs)`: drop every position named by `locs`
(normalized, de-duplicated); fails if any index is out of range. -/
def npDelete (chunk : List Particle) (locs : List Int) : Option (List Particle) := do
  let js ← optMap (normLoc chunk.length) locs
  pure ((chunk.enum.filter (fun ip => ¬ ip.1 ∈ js)).map (·.2))

/-- `ParticleSet.__getitem__`: run the global-index walk, then access the
chunk with numpy single-index semantics (so a negative key reaches the
final access un-normalized). -/
def getitem (s : PState) (key : Int) : Option Particle := do
  let bs ← get_list_array_index_int s.bounds key
  let chunk ← s.plist.get? bs.1
  npGet chunk bs.2

/-- `ParticleSet._remove_ (bracket_index, local_indices)`: fancy-select the
records being removed, delete those slots, then either recompute the
summary from the survivors, or drop the chunk (removing the first summary
tuple equal to its stale summary — Python `list.remove`), or keep a single
emptied chunk with the sentinel summary. -/
def premove (s : PState) (b : Nat) (locs : List Int) : Option (PState × List Particle) := do
  let chunk ← s.plist.get? b
  let bnd ← s.bounds.get? b
  let removed ← npFancy chunk locs
  let newChunk ← npDelete chunk locs
  if newChunk ≠ [] then
    pure (⟨s.plist.set b newChunk, s.bounds.set b (recompBounds newChunk)⟩, removed)
  else if 1 < s.plist.length then
    pure (⟨s.plist.eraseIdx b, s.bounds.erase bnd⟩, removed)
  else
    pure (⟨s.plist.set b [], s.bounds.set b sentinelBounds⟩, removed)

/-- The per-bracket removal loop of `pop`/`remove`: visit the entries of
`lindices` in bracket order, call `_remove_` on each non-`None` entry, and
concatenate the removed records. -/
def removeBracketsGo : PState → List (Option (List Int)) → Nat → List Particle →
    Option (PState × List Particle)
  | s, [], _, acc => some (s, acc)
  | s, none :: rest, b, acc => removeBracketsGo s rest (b + 1) acc
  | s, some locs :: rest, b, acc => do
    let pr ← premove s b locs
    removeBracketsGo pr.1 rest (b + 1) (acc ++ pr.2)

/-- The removal loop including the `assert len(lindices) == len(self._plist)`
guard that precedes it in both `pop` and `remove`. -/
def removeBrackets (s : PState) (l : List (Option (List Int))) :
    Option (PState × List Particle) :=
  if l.length = s.plist.length then removeBracketsGo s l 0 [] else none

/-- The `while gindex < 0: gindex = ncounter + gindex` normalization loop of
`pop` and `remove`.  The fuel models divergence: with `ncounter = 0` and a
negative index the Python loop never terminates, which surfaces as `none`. -/
def whileNeg : Nat → Nat → Int → Option Int
  | 0, _, g => if g < 0 then none else some g
  | f + 1, n, g => if g < 0 then whileNeg f n (g + (n : Int)) else some g

/-- Grouping of requested global indices into per-bracket slot lists, as the
first half of `pop`/`remove` does for scalar/array input: normalize each
index, run the global-index walk, and append the slot to the entry of the
resolved bracket (IndexError if the walk's bracket is out of range). -/
def groupGlob (s : PState) (gs : List Int) : Option (List (Option (List Int))) :=
  let ncounter := psize s
  go gs (List.replicate s.plist.length none) ncounter
where
  go : List Int → List (Option (List Int)) → Nat → Option (List (Option (List Int)))
  | [], acc, _ => some acc
  | g :: rest, acc, n => do
    let gn ← whileNeg (g.natAbs + 1) n g
    let bs ← get_list_array_index_int s.bounds gn
    let entry ← acc.get? bs.1
    go rest (acc.set bs.1 (some (match entry with
      | none => [bs.2]
      | some l => l ++ [bs.2]))) n

/-- One scan of `_merge_brackets_`: find the first two brackets whose cached
count is below `nlist_limit / 2` (reading the summary of every bracket index
of `_plist`; a missing summary is the source's IndexError).  `some none`
means the scan completed without finding a pair. -/
def findPair (s : PState) : Option (Option (Nat × Nat)) :=
  go (List.range s.plist.length) none
where
  go : List Nat → Option Nat → Option (Option (Nat × Nat))
  | [], _ => some none
  | k :: rest, trg => do
    let bnd ← s.bounds.get? k
    if bnd.2.2 < nlist_limit / 2 then
      match trg with
      | none => go rest (some k)
      | some i => some (some (i, k))
    else go rest trg

/-- One merge of `_merge_brackets_`: append the source bracket onto the
target, recompute the target summary from the union (numpy raises on an
empty union — `np.min` of an empty array), and delete the source bracket
and its summary by position (`del`). -/
def mergeStep (s : PState) (i j : Nat) : Option PState := do
  let ci ← s.plist.get? i
  let cj ← s.plist.get? j
  let merged := ci ++ cj
  if merged = [] then none
  else
    pure ⟨(s.plist.set i merged).eraseIdx j, (s.bounds.set i (recompBounds merged)).eraseIdx j⟩

/-- The `while nmerges > 0` loop of `_merge_brackets_`, one merge per pass.
The fuel never runs out mid-work when started at `plist.length + 1`, since
every merge shortens the chunk list. -/
def mergeLoop : Nat → PState → Option PState
  | 0, s => some s
  | f + 1, s => do
    let p ← findPair s
    match p with
    | none => some s
    | some ij => do
      let t ← mergeStep s ij.1 ij.2
      mergeLoop f t

/-- `ParticleSet._merge_brackets_`. -/
def mergeBrackets (s : PState) : Option PState :=
  mergeLoop (s.plist.length + 1) s

/-- The shape of `pop`'s return value (`None` / bare record / list). -/
inductive PopResult where
  | nothing
  | single (p : Particle)
  | multiple (ps : List Particle)
deriving DecidableEq, Repr

/-- The final shaping of `pop`'s removed-record list. -/
def shapeResult : List Particle → PopResult
  | [] => .nothing
  | [p] => .single p
  | ps => .multiple ps

/-- `ParticleSet.pop` on a scalar or array of global indices: group the
indices per bracket, run the removal loop collecting removed records, run
compaction, then shape the result. -/
def popGlob (s : PState) (gs : List Int) : Option (PState × PopResult) := do
  let l ← groupGlob s gs
  let tr ← removeBrackets s l
  let t ← mergeBrackets tr.1
  pure (t, shapeResult tr.2)

/-- `ParticleSet.remove` on a scalar or array of global indices: identical
to `pop` except the removed records are discarded. -/
def removeGlob (s : PState) (gs : List Int) : Option PState :=
  (popGlob s gs).map (·.1)

/-- The list comprehension of `get_list_array_index_by_PID`: every
`(bracket_index, slot_index)` whose record carries the requested identity,
in store order. -/
def locatedPID (s : PState) (pid : Int) : List (Nat × Nat) :=
  s.plist.enum.flatMap fun bc =>
    bc.2.enum.filterMap fun sp => if sp.2.pid = pid then some (bc.1, sp.1) else none

/-- The result of an identity lookup: the sentinel `-1` or a location. -/
inductive LookupResult where
  | sentinel
  | loc (b slot : Nat)
deriving DecidableEq, Repr

/-- `ParticleSet.get_list_array_index_by_PID`: warn and return `-1` when no
or more than one record matches, else the `(bracket, slot)` pair. -/
def get_list_array_index_by_PID (s : PState) (pid : Int) : LookupResult :=
  match locatedPID s pid with
  | [] => .sentinel
  | [x] => .loc x.1 x.2
  | _ => .sentinel

/-- The bracket-search loop of `get_list_array_index` on a particle
argument: advance while the identity lies outside the cached id-range of
the current bracket; reading the summary of bracket `b + 1` when `b + 1`
is past the summary list is the source's IndexError (`none`).  `some none`
is the loop exiting with `bracket_index ≥ len(plist)`. -/
def objWalkGo (s : PState) (pid : Int) : Nat → Nat → Bounds → Option (Option Nat)
  | 0, _, _ => none
  | f + 1, b, bnd =>
    if b < s.plist.length ∧ (pid < bnd.1 ∨ bnd.2.1 < pid) then
      match s.bounds.get? (b + 1) with
      | none => none
      | some bnd' => objWalkGo s pid f (b + 1) bnd'
    else if b < s.plist.length then some (some b) else some none

/-- `get_list_array_index` on a particle argument (keyed by its identity):
range-prefilter walk over bracket summaries, then a linear slot scan; a
miss at either stage warns and returns `-1`. -/
def get_list_array_index_obj (s : PState) (pid : Int) : Option LookupResult := do
  let bnd0 ← s.bounds.get? 0
  let w ← objWalkGo s pid (s.plist.length + 1) 0 bnd0
  match w with
  | none => pure .sentinel
  | some b => do
    let chunk ← s.plist.get? b
    match chunk.findIdx? (fun p => p.pid = pid) with
    | none => pure .sentinel
    | some sl => pure (.loc b sl)

/-- The `particles` property: `None` for an empty chunk list; the sole
chunk when there is one; otherwise the first chunk concatenated with
*every* chunk (the loop restarts at bracket 0, duplicating the first
chunk). -/
def particlesProp (s : PState) : Option (List Particle) :=
  match s.plist with
  | [] => none
  | c0 :: _ => some (if 1 < s.plist.length then c0 ++ s.plist.flatten else c0)

/-!
The stepping scheduler: the body of `ParticleSet.execute` from the point
where all time arguments have been converted to plain seconds (floats in
the source, exact rationals here; the control flow under scrutiny only
compares and adds these quantities).  `np.infty` / `-np.infty` are made
explicit in the extended type `XQ`.  The external collaborators are opaque:
the kernel invocation only counts, and `fieldset.computeTimeChunk` is a
caller-supplied function whose return value feeds `next_input`.
-/

/-- A float time value: finite (exact rational) or one of the two numpy
infinities. -/
inductive XQ where
  | ninf
  | fin (q : ℚ)
  | pinf
deriving DecidableEq, Repr

/-- Strict comparison on extended times. -/
def XQ.blt : XQ → XQ → Bool
  | .ninf, .ninf => false
  | .ninf, _ => true
  | .fin a, .fin b => decide (a < b)
  | .fin _, .pinf => true
  | _, _ => false

/-- `min` of two extended times. -/
def XQ.minx (a b : XQ) : XQ := if XQ.blt b a then b else a

/-- `max` of two extended times. -/
def XQ.maxx (a b : XQ) : XQ := if XQ.blt a b then b else a

/-- Addition of extended times.  `inf + (-inf)` is NaN in numpy; that
combination is unreachable in every modelled path and mapped to `0`. -/
def XQ.addx : XQ → XQ → XQ
  | .fin a, .fin b => .fin (a + b)
  | .pinf, .ninf => .fin 0
  | .ninf, .pinf => .fin 0
  | .pinf, _ => .pinf
  | .ninf, _ => .ninf
  | .fin _, .pinf => .pinf
  | .fin _, .ninf => .ninf

/-- Negation of an extended time. -/
def XQ.negx : XQ → XQ
  | .ninf => .pinf
  | .fin a => .fin (-a)
  | .pinf => .ninf

/-- Subtraction of extended times. -/
def XQ.subx (a b : XQ) : XQ := XQ.addx a (XQ.negx b)

/-- Scaling of an extended time by a finite factor (used for
`interval * np.sign(dt)`).  `inf * 0` is NaN in numpy; that combination is
unreachable in every modelled path and mapped to `0`. -/
def XQ.smulx : XQ → ℚ → XQ
  | .fin a, c => .fin (a * c)
  | .pinf, c => if 0 < c then .pinf else if c < 0 then .ninf else .fin 0
  | .ninf, c => if 0 < c then .ninf else if c < 0 then .pinf else .fin 0

/-- Python's `abs` on a float modelled as a rational. -/
def qabs (x : ℚ) : ℚ := if x < 0 then -x else x

/-- The scheduler's event tolerance test `abs(time - next_event) < tol`
with `tol = 1e-12`; an infinite event time never fires. -/
def nearx (a : ℚ) : XQ → Bool
  | .fin q => decide (qabs (a - q) < 1 / 1000000000000)
  | _ => false

/-- The arguments of one `execute(...)` call, after conversion of all time
quantities to seconds.  `none` stands for an argument the caller did not
supply (for `outputdtArg`: no `output_file`).  `ctc` is
`fieldset.computeTimeChunk`. -/
structure ExecCfg where
  ptimes : List ℚ
  endtimeArg : Option ℚ
  runtimeArg : Option ℚ
  dtArg : ℚ
  outputdtArg : Option ℚ
  moviedtArg : Option ℚ
  callbackdtArg : Option ℚ
  repeatdtArg : Option ℚ
  repeatStartArg : Option ℚ
  fieldRange : ℚ × ℚ
  ctc : ℚ → ℚ → ℚ

/-- The mutable state of the stepping loop, plus counters for the opaque
external calls. -/
structure SchedState where
  time : ℚ
  nextPrelease : XQ
  nextOutput : XQ
  nextMovie : XQ
  nextCallback : XQ
  nextInput : ℚ
  kernelCalls : Nat
  iters : Nat
  releases : Nat
  outputs : Nat
  movies : Nat
  callbacks : Nat

/-- What an `execute` run reports: external-call counts and the final value
of the scheduler's `time`. -/
structure ExecResult where
  kernelCalls : Nat
  iters : Nat
  releases : Nat
  outputs : Nat
  movies : Nat
  callbacks : Nat
  finalTime : ℚ
deriving DecidableEq, Repr

/-- `np.sign` on a finite quantity. -/
def qsign (x : ℚ) : ℚ := if 0 < x then 1 else if x < 0 then -1 else 0

/-- `_starttime`: the extreme of the live particles' times (minimum for
`dt >= 0`, maximum otherwise); an empty population makes `min([])` raise. -/
def startTimeOf (cfg : ExecCfg) : Option ℚ :=
  match cfg.ptimes with
  | [] => none
  | t :: ts => some (if 0 ≤ cfg.dtArg then ts.foldl min t else ts.foldl max t)

/-- The end time derived from the arguments before the single-shot
adjustment: an explicit runtime wins, then an explicit end time, then the
field's full time range. -/
def endtime0Of (cfg : ExecCfg) (t0 : ℚ) : ℚ :=
  match cfg.runtimeArg with
  | some rt => t0 + rt * qsign cfg.dtArg
  | none =>
    match cfg.endtimeArg with
    | some e => e
    | none => if 0 ≤ cfg.dtArg then cfg.fieldRange.2 else cfg.fieldRange.1

/-- The single-shot trigger:
`abs(endtime - _starttime) < 1e-5 or dt == 0 or runtime == 0`. -/
def execOnceOf (cfg : ExecCfg) (t0 e0 : ℚ) : Bool :=
  decide (qabs (e0 - t0) < 1 / 100000) || decide (cfg.dtArg = 0) ||
    decide (cfg.runtimeArg = some 0)

/-- The target time of one iteration: the extreme of the five pending event
times and the end time (minimum for `dt > 0`, else maximum — note `dt = 0`
takes the maximum branch). -/
def targetOf (dt endtime : ℚ) (st : SchedState) : XQ :=
  if 0 < dt then
    XQ.minx st.nextPrelease (XQ.minx (XQ.fin st.nextInput) (XQ.minx st.nextOutput
      (XQ.minx st.nextMovie (XQ.minx st.nextCallback (XQ.fin endtime)))))
  else
    XQ.maxx st.nextPrelease (XQ.maxx (XQ.fin st.nextInput) (XQ.maxx st.nextOutput
      (XQ.maxx st.nextMovie (XQ.maxx st.nextCallback (XQ.fin endtime)))))

/-- One loop body after the target time `t` is fixed: invoke the kernel,
fire (in order) release, output, movie and callback events whose time
matches `t` within tolerance, advancing each fired event by its interval
times `np.sign(dt)`, and request the next input chunk unless `t` is the
end time. -/
def stepEvents (cfg : ExecCfg) (dt endtime : ℚ) (outX movX cbX : XQ) (t : ℚ)
    (st : SchedState) : SchedState :=
  let s1 : SchedState :=
    { st with time := t, kernelCalls := st.kernelCalls + 1, iters := st.iters + 1 }
  let s2 : SchedState :=
    if nearx t s1.nextPrelease then
      { s1 with releases := s1.releases + 1,
                nextPrelease := XQ.addx s1.nextPrelease
                  (XQ.fin ((cfg.repeatdtArg.getD 0) * qsign dt)) }
    else s1
  let s3 : SchedState :=
    if nearx t s2.nextOutput then
      { s2 with outputs := s2.outputs + (if cfg.outputdtArg.isSome then 1 else 0),
                nextOutput := XQ.addx s2.nextOutput (XQ.smulx outX (qsign dt)) }
    else s2
  let s4 : SchedState :=
    if nearx t s3.nextMovie then
      { s3 with movies := s3.movies + 1,
                nextMovie := XQ.addx s3.nextMovie (XQ.smulx movX (qsign dt)) }
    else s3
  let s5 : SchedState :=
    if nearx t s4.nextCallback then
      { s4 with callbacks := s4.callbacks + 1,
                nextCallback := XQ.addx s4.nextCallback (XQ.smulx cbX (qsign dt)) }
    else s4
  if t ≠ endtime then { s5 with nextInput := cfg.ctc t dt } else s5

/-- The `while` loop of `execute`: run while `time` has not reached
`endtime` in the direction of `dt` — or unconditionally when `dt = 0`, in
which case the body breaks after one pass.  `none` is fuel exhaustion with
the loop still wanting to run, or a target time that is not finite (which
cannot happen: the extreme always includes the finite `endtime`). -/
def loopGo (cfg : ExecCfg) (dt endtime : ℚ) (outX movX cbX : XQ) :
    Nat → SchedState → Option SchedState
  | 0, st =>
    if (st.time < endtime ∧ 0 < dt) ∨ (endtime < st.time ∧ dt < 0) ∨ dt = 0 then none
    else some st
  | f + 1, st =>
    if (st.time < endtime ∧ 0 < dt) ∨ (endtime < st.time ∧ dt < 0) ∨ dt = 0 then
      match targetOf dt endtime st with
      | XQ.fin t =>
        let s2 := stepEvents cfg dt endtime outX movX cbX t st
        if dt = 0 then some s2 else loopGo cfg dt endtime outX movX cbX f s2
      | _ => none
    else some st

/-- `ParticleSet.execute` from the argument checks to loop exit: validate
the time arguments, derive the start and end times, apply the single-shot
adjustment, initialise the five pending event times, and run the loop. -/
def execute (cfg : ExecCfg) (fuel : Nat) : Option ExecResult :=
  if ¬ (cfg.runtimeArg.all fun rt => decide (0 ≤ rt)) then none
  else if ¬ (cfg.outputdtArg.all fun od => decide (0 ≤ od)) then none
  else if ¬ (cfg.moviedtArg.all fun md => decide (0 ≤ md)) then none
  else if cfg.runtimeArg.isSome ∧ cfg.endtimeArg.isSome then none
  else
    match startTimeOf cfg with
    | none => none
    | some t0 =>
      let rs : ℚ := match cfg.repeatStartArg with
        | some r => r
        | none => t0
      let e0 := endtime0Of cfg t0
      let once := execOnceOf cfg t0 e0
      let dt := if once then 0 else cfg.dtArg
      let endtime := if once then t0 else e0
      let outX := (cfg.outputdtArg.map XQ.fin).getD XQ.pinf
      let movX := (cfg.moviedtArg.map XQ.fin).getD XQ.pinf
      let cbX := match cfg.callbackdtArg with
        | some c => XQ.fin c
        | none =>
          XQ.minx (XQ.minx XQ.pinf movX)
            (XQ.minx outX ((cfg.repeatdtArg.map XQ.fin).getD XQ.pinf))
      let npl : XQ := match cfg.repeatdtArg with
        | some rdt =>
          if rdt = 0 then (if 0 < dt then XQ.pinf else XQ.ninf)
          else XQ.fin (rs + (((⌊qabs (t0 - rs) / rdt⌋ : ℤ) : ℚ) + 1) * rdt * qsign dt)
        | none => if 0 < dt then XQ.pinf else XQ.ninf
      let st0 : SchedState :=
        { time := t0
          nextPrelease := npl
          nextOutput := if 0 < dt then XQ.addx (XQ.fin t0) outX else XQ.subx (XQ.fin t0) outX
          nextMovie := if 0 < dt then XQ.addx (XQ.fin t0) movX else XQ.subx (XQ.fin t0) movX
          nextCallback := if 0 < dt then XQ.addx (XQ.fin t0) cbX else XQ.subx (XQ.fin t0) cbX
          nextInput := cfg.ctc t0 (qsign dt)
          kernelCalls := 0, iters := 0, releases := 0, outputs := 0, movies := 0,
          callbacks := 0 }
      match loopGo cfg dt endtime outX movX cbX fuel st0 with
      | none => none
      | some fs =>
        some ⟨fs.kernelCalls, fs.iters, fs.releases, fs.outputs, fs.movies, fs.callbacks,
              fs.time⟩

/-!
Specification-side companion definitions used by the theorems: the removed
records a removal request plans per bracket, the store invariants of the
claims, and the reachable-state relation generated by the public mutators.
-/

/-- The records a per-bracket removal request selects, reading every bracket
from the same (pre-removal) store: brackets in ascending order, and within
one bracket the slots in request order. -/
def plannedGo (s : PState) : List (Option (List Int)) → Nat → Option (List Particle)
  | [], _ => some []
  | none :: rest, b => plannedGo s rest (b + 1)
  | some locs :: rest, b => do
    let c ← s.plist.get? b
    let r ← npFancy c locs
    let rr ← plannedGo s rest (b + 1)
    pure (r ++ rr)

/-- The full planned removal list of a request. -/
def plannedRemoved (s : PState) (l : List (Option (List Int))) : Option (List Particle) :=
  plannedGo s l 0

/-- Total number of slots named by a per-bracket request. -/
def totalSlots (l : List (Option (List Int))) : Nat :=
  (l.map fun e => (e.getD []).length).sum

/-- A chunk summary is well-formed for its chunk: the count is the true
length; a nonempty chunk carries either the recomputed exact summary or the
construction-time summary (min/max folded from the int32 sentinels); an
empty chunk carries the sentinel summary. -/
def goodBnd (c : List Particle) (b : Bounds) : Prop :=
  (c = [] ∧ b = sentinelBounds) ∨
    (c ≠ [] ∧ (b = recompBounds c ∨ b = buildBounds c))

/-- The store invariant: summaries align with chunks one for one, and each
summary is well-formed for its chunk. -/
def StoreInv (s : PState) : Prop :=
  s.bounds.length = s.plist.length ∧
    ∀ i c b, s.plist.get? i = some c → s.bounds.get? i = some b → goodBnd c b

/-- All identities in the store are pairwise distinct. -/
def UniqIds (s : PState) : Prop :=
  (s.plist.flatMap chunkIds).Nodup

/-- States reachable through successfully completing public mutators:
construction from distinct identities, `add` keeping identities distinct,
and `remove`/`pop` driven by global indices. -/
inductive Reach : PState → Prop
  | con (pids : List Int) (h : pids.Nodup) : Reach (pinit pids)
  | add (s t : PState) (hs : Reach s) (ht : Reach t) (h : UniqIds (padd s t)) :
      Reach (padd s t)
  | rem (s : PState) (gs : List Int) (t : PState) (hs : Reach s)
      (h : removeGlob s gs = some t) : Reach t
  | pop (s : PState) (gs : List Int) (t : PState) (r : PopResult) (hs : Reach s)
      (h : popGlob s gs = some (t, r)) : Reach t

/-- Boolean form of the per-chunk count/length consistency of claim C4. -/
def countLenOKb (s : PState) : Bool :=
  s.bounds.length == s.plist.length &&
    (s.plist.zip s.bounds).all fun cb => cb.2.2.2 == cb.1.length

/-!
Concrete instances used by counterexamples and witnesses.
-/

/-- A store with chunk sizes 1 and 2 (ids 10 / 20, 30). -/
def c1s : PState := padd (pinit [10]) (pinit [20, 30])

/-- A one-chunk store holding the single identity 5. -/
def c2s : PState := pinit [5]

/-- A store with two two-record chunks (ids 1,2 / 3,4). -/
def c3s : PState := padd (pinit [1, 2]) (pinit [3, 4])

/-- 2048 identities 100..2147 (enough that the merge pass leaves the big
chunk alone: its cached count is not below `nlist_limit / 2`). -/
def c4ids : List Int := (List.range (nlist_limit / 2)).map fun n : Nat => 100 + (n : Int)

/-- The records of the 2048-identity population. -/
def c4chunk : List Particle := c4ids.map Particle.mk

/-- Three populations merged: ids {5}, {100..2147}, {5} — the duplicated
identity 5 is what claim C4's counterexample exploits. -/
def c4state : PState := padd (padd (pinit [5]) (pinit c4ids)) (pinit [5])

/-- Removing global index 2 from `c4state` (which the store resolves to the
third bracket) leaves the summary list misaligned with the chunk list. -/
def c4final : Option PState := removeGlob c4state [2]

/-- Two single-record chunks that compaction merges into one. -/
def c6s : PState := padd (pinit [0]) (pinit [1])

/-- The compacted form of `c6s`. -/
def c6merged : PState := ⟨[[⟨0⟩, ⟨1⟩]], [(0, 1, 2)]⟩

/-- The 5-particle population of claim C7's scenario. -/
def c7five : PState := pinit [0, 1, 2, 3, 4]

/-- A single-shot scheduler configuration whose field collaborator reports
an input-chunk time later than the start time. -/
def c5cfg : ExecCfg :=
  { ptimes := [0]
    endtimeArg := none
    runtimeArg := none
    dtArg := 0
    outputdtArg := none
    moviedtArg := none
    callbackdtArg := none
    repeatdtArg := none
    repeatStartArg := none
    fieldRange := (0, 100)
    ctc := fun _ _ => 1 }

/-- A single-shot configuration whose collaborators keep every pending
event at or before the start time. -/
def c5wcfg : ExecCfg :=
  { ptimes := [3]
    endtimeArg := none
    runtimeArg := some 0
    dtArg := 1
    outputdtArg := some 2
    moviedtArg := none
    callbackdtArg := none
    repeatdtArg := none
    repeatStartArg := none
    fieldRange := (0, 100)
    ctc := fun _ _ => 0 }

/-!
Basic lemmas.
-/

theorem get?_some_lt {l : List α} {a : α} {n : Nat} (h : l.get? n = some a) :
    n < l.length := by
  rw [List.get?_eq_getElem?] at h
  exact (List.getElem?_eq_some.mp h).1

theorem optMap_length {f : α → Option β} : ∀ {xs : List α} {ys : List β},
    optMap f xs = some ys → ys.length = xs.length := by
  intro xs
  induction xs with
  | nil => intro ys h; simp [optMap] at h; simp [← h]
  | cons x xs ih =>
    intro ys h
    simp only [optMap, Option.pure_def, Option.bind_eq_bind, Option.bind_eq_some,
      Option.some_inj] at h
    obtain ⟨y, hy, ys2, hys2, rfl⟩ := h
    simp [ih hys2]

theorem optMap_none_of_mem {f : α → Option β} {xs : List α} {x : α}
    (hx : x ∈ xs) (hf : f x = none) : optMap f xs = none := by
  induction xs with
  | nil => simp at hx
  | cons a as ih =>
    rcases List.mem_cons.mp hx with rfl | hx
    · simp [optMap, hf]
    · cases ha : f a <;> simp [optMap, ha, ih hx]

/-!
Claim C6: idempotence of the compaction pass.
-/

theorem mergeStep_length {s t : PState} {i j : Nat} (h : mergeStep s i j = some t) :
    t.plist.length + 1 = s.plist.length := by
  simp only [mergeStep, Option.bind_eq_bind, Option.bind_eq_some] at h
  obtain ⟨ci, hci, cj, hcj, h⟩ := h
  have hj : j < s.plist.length := get?_some_lt hcj
  split at h
  · exact absurd h (by simp)
  · simp only [Option.pure_def, Option.some_inj] at h
    subst h
    have hjs : j < (s.plist.set i (ci ++ cj)).length := by simpa using hj
    simpa using List.length_eraseIdx_add_one hjs

theorem mergeLoop_findPair {fuel : Nat} : ∀ {s t : PState},
    s.plist.length + 1 ≤ fuel → mergeLoop fuel s = some t → findPair t = some none := by
  induction fuel with
  | zero => intro s t h; omega
  | succ f ih =>
    intro s t hle h
    simp only [mergeLoop, Option.bind_eq_bind, Option.bind_eq_some] at h
    obtain ⟨p, hp, h⟩ := h
    match p with
    | none =>
      simp only [Option.some_inj] at h
      subst h; exact hp
    | some ij =>
      simp only [Option.bind_eq_some] at h
      obtain ⟨u, hu, h⟩ := h
      have hlen := mergeStep_length hu
      exact ih (by omega) h

/-- Claim C6: the compaction pass `_merge_brackets_` is idempotent — when a
compaction run completes, running it again returns the same chunk layout
(the very same state, chunk contents and summaries included). -/
theorem C6_merge_idempotent (s t : PState) (h : mergeBrackets s = some t) :
    mergeBrackets t = some t := by
  have hfp : findPair t = some none := mergeLoop_findPair (Nat.le_refl _) h
  simp [mergeBrackets, mergeLoop, hfp]

/-- Witness for C6 at a concrete two-chunk store that compaction actually
merges. -/
theorem C6_witness : mergeBrackets c6s = some c6merged ∧ mergeBrackets c6merged = some c6merged :=
  ⟨by decide, C6_merge_idempotent c6s c6merged (by decide)⟩

/-!
Claim C7: negative global indices wrap by adding the population size.
-/

theorem whileNeg_nonneg {f n : Nat} {x : Int} (hx : 0 ≤ x) : whileNeg f n x = some x := by
  cases f <;> simp [whileNeg, not_lt.mpr hx]

/-- Claim C7: the index-normalization loop of `pop`/`remove` sends a
negative global index `g` with `-n ≤ g < 0` to `g + n`; and in the concrete
scenario, popping global index `-1` from the 5-particle population removes
the record at the highest global index and leaves `size == 4`. -/
theorem C7_negative_wraparound :
    (∀ (n : Nat) (g : Int), 1 ≤ n → -(n : Int) ≤ g → g < 0 →
      whileNeg (g.natAbs + 1) n g = some (g + n))
    ∧ popGlob c7five [-1] = some (⟨[[⟨0⟩, ⟨1⟩, ⟨2⟩, ⟨3⟩]], [(0, 3, 4)]⟩, .single ⟨4⟩)
    ∧ removeGlob c7five [-1] = some ⟨[[⟨0⟩, ⟨1⟩, ⟨2⟩, ⟨3⟩]], [(0, 3, 4)]⟩
    ∧ c7five.plist.flatten.getLast? = some ⟨4⟩
    ∧ psize ⟨[[⟨0⟩, ⟨1⟩, ⟨2⟩, ⟨3⟩]], [(0, 3, 4)]⟩ = 4 := by
  refine ⟨?_, by decide, by decide, by decide, by decide⟩
  intro n g hn hng hg
  have hx : (0 : Int) ≤ g + n := by omega
  simp only [whileNeg, if_pos hg]
  exact whileNeg_nonneg hx

/-- Witness for C7's general part at `n = 5`, `g = -1`. -/
theorem C7_witness : whileNeg ((-1 : Int).natAbs + 1) 5 (-1) = some 4 := by
  have h := C7_negative_wraparound.1 5 (-1) (by decide) (by decide) (by decide)
  simpa using h

/-!
Claim C1: the global-index walk (code bug).
-/

/-- Claim C1 (code bug): on a store whose chunks have sizes 1 and 2, the
in-range global index 2 (the third of three records, which the spec's
resolver locates at chunk 1, slot 1) is resolved by the code's walk to
`(2, 0)` — a bracket that does not exist — so `__getitem__`/`pop`/`remove`
raise instead of returning the record.  The walk re-adds the count of the
chunk being left (`bounds[bracket_index]` is read before the increment)
instead of the next chunk's count. -/
theorem C1_walk_bug :
    trueSize c1s = 3 ∧ psize c1s = 3 ∧ c1s.plist.length = 2
    ∧ get_list_array_index_int c1s.bounds 2 = some (2, 0)
    ∧ resolve_by_global_index_spec c1s.bounds 2 = some (1, 1)
    ∧ c1s.plist.flatten.get? 2 = some ⟨30⟩
    ∧ getitem c1s 2 = none
    ∧ popGlob c1s [2] = none := by decide

/-!
Claim C8: the `particles` property duplicates the first chunk.
-/

/-- Claim C8: for a store with more than one chunk the `particles` property
returns the first chunk twice — its length is the true population size plus
the first chunk's length (equivalently, `size` plus the first chunk's
cached count when the summaries are consistent); with exactly one chunk it
returns exactly that chunk, and with none it returns `None`. -/
theorem C8_particles_duplicates_first_chunk :
    (∀ s, s.plist = [] → particlesProp s = none)
    ∧ (∀ s c0, s.plist = [c0] → particlesProp s = some c0)
    ∧ (∀ s c0 rest, s.plist = c0 :: rest → rest ≠ [] →
        particlesProp s = some (c0 ++ s.plist.flatten)
        ∧ (particlesProp s).map List.length = some (trueSize s + c0.length)
        ∧ (psize s = trueSize s →
            (particlesProp s).map List.length = some (psize s + c0.length))) := by
  refine ⟨?_, ?_, ?_⟩
  · intro s h; simp [particlesProp, h]
  · intro s c0 h; simp [particlesProp, h]
  · intro s c0 rest h hne
    have hlen : 1 < s.plist.length := by
      rw [h]; cases rest with
      | nil => exact absurd rfl hne
      | cons a as => simp
    have hp : particlesProp s = some (c0 ++ s.plist.flatten) := by
      rw [particlesProp, h]
      simp only [← h, if_pos hlen]
    refine ⟨hp, ?_, ?_⟩
    · rw [hp]
      simp [trueSize, Nat.add_comm]
    · intro hsz
      rw [hp, hsz]
      simp [trueSize, Nat.add_comm]

/-!
Claim C9: `__getitem__` applies no wraparound to negative keys.
-/

/-- Claim C9: on a store with more than one chunk (first chunk nonempty),
`__getitem__ (-1)` returns the *last record of the first chunk* — the
negative key reaches numpy indexing inside chunk 0 un-normalized; global
wraparound happens only in `pop`/`remove` (their normalization loop is the
separate `whileNeg`). -/
theorem C9_getitem_negative (s : PState) (c0 : List Particle) (rest : List (List Particle))
    (h : s.plist = c0 :: rest) (hrest : rest ≠ []) (hb : s.bounds ≠ []) (hc0 : c0 ≠ []) :
    getitem s (-1) = c0.getLast? := by
  obtain ⟨b0, bs, hbeq⟩ : ∃ b0 bs, s.bounds = b0 :: bs := by
    cases hbb : s.bounds with
    | nil => exact absurd hbb hb
    | cons x xs => exact ⟨x, xs, rfl⟩
  have hwalk : get_list_array_index_int s.bounds (-1) = some (0, -1) := by
    rw [hbeq]
    simp only [get_list_array_index_int, walkLoop]
    have : (-1 : Int) < (b0.2.2 : Int) := by omega
    simp [this]
  have hget0 : s.plist.get? 0 = some c0 := by rw [h]; rfl
  have hlenpos : 0 < c0.length := List.length_pos.mpr hc0
  have hnp : npGet c0 (-1) = c0.getLast? := by
    have hnorm : normLoc c0.length (-1) = some (c0.length - 1) := by
      simp only [normLoc]
      have h1 : (-1 : Int) < 0 := by decide
      rw [if_pos h1]
      have h2 : (0 : Int) ≤ (c0.length : Int) + (-1) ∧
          (c0.length : Int) + (-1) < (c0.length : Int) := by omega
      rw [if_pos h2]
      congr 1
      omega
    rw [npGet, hnorm, List.getLast?_eq_getElem?]
    simp [List.get?_eq_getElem?]
  simp only [getitem, hwalk, Option.bind_eq_bind, Option.some_bind, hget0, hnp]

/-- Witness for C9 at the concrete two-chunk store: `[-1]` yields id 2 (the
last record of chunk 0), not id 4 (the last record of the store). -/
theorem C9_witness : getitem c3s (-1) = some ⟨2⟩ ∧ c3s.plist.flatten.getLast? = some ⟨4⟩ := by
  have h := C9_getitem_negative c3s [⟨1⟩, ⟨2⟩] [[⟨3⟩, ⟨4⟩]] (by decide) (by decide)
    (by decide) (by decide)
  exact ⟨by simpa using h, by decide⟩

/-!
Claim C2: identity lookups and their failure behaviour.
-/

/-- Counterexample for C2: identity-lookup failure is converted into the
sentinel return value `-1`, not surfaced as an error — both when no record
matches (id 7 below) and when more than one matches (id 5 in a store that
holds it twice). -/
theorem C2_sentinel_cex :
    locatedPID c2s 7 = []
    ∧ get_list_array_index_by_PID c2s 7 = .sentinel
    ∧ (locatedPID (padd c2s c2s) 5).length = 2
    ∧ get_list_array_index_by_PID (padd c2s c2s) 5 = .sentinel := by decide

theorem objWalkGo_out {s : PState} {pid : Int}
    (hlen : s.bounds.length = s.plist.length)
    (hout : ∀ bnd ∈ s.bounds, pid < bnd.1 ∨ bnd.2.1 < pid) :
    ∀ fuel b bnd, s.bounds.get? b = some bnd → s.plist.length - b < fuel →
      objWalkGo s pid fuel b bnd = none := by
  intro fuel
  induction fuel with
  | zero => intro b bnd _ hf; omega
  | succ f ih =>
    intro b bnd hb hf
    have hblt : b < s.bounds.length := get?_some_lt hb
    have hbp : b < s.plist.length := by omega
    have hbnd : bnd ∈ s.bounds := List.get?_mem hb
    have hcond : b < s.plist.length ∧ (pid < bnd.1 ∨ bnd.2.1 < pid) :=
      ⟨hbp, hout bnd hbnd⟩
    rw [objWalkGo, if_pos hcond]
    cases hb1 : s.bounds.get? (b + 1) with
    | none => rfl
    | some bnd1 =>
      have : b + 1 < s.bounds.length := get?_some_lt hb1
      exact ih (b + 1) bnd1 hb1 (by omega)

/-- Amended claim C2: identity lookups do not surface failures as errors —
`get_list_array_index_by_PID` returns the sentinel `-1` both when no record
matches and when more than one does (only a unique match yields a
location); and the particle-object lookup crashes with an IndexError
(rather than reporting not-found) whenever the identity lies outside every
chunk's cached id-range. -/
theorem C2_amended :
    (∀ s pid, locatedPID s pid = [] → get_list_array_index_by_PID s pid = .sentinel)
    ∧ (∀ s pid x y l, locatedPID s pid = x :: y :: l →
        get_list_array_index_by_PID s pid = .sentinel)
    ∧ (∀ s pid x, locatedPID s pid = [x] →
        get_list_array_index_by_PID s pid = .loc x.1 x.2)
    ∧ (∀ s pid, s.bounds.length = s.plist.length → s.plist ≠ [] →
        (∀ bnd ∈ s.bounds, pid < bnd.1 ∨ bnd.2.1 < pid) →
        get_list_array_index_obj s pid = none) := by
  refine ⟨?_, ?_, ?_, ?_⟩
  · intro s pid h; simp [get_list_array_index_by_PID, h]
  · intro s pid x y l h; simp [get_list_array_index_by_PID, h]
  · intro s pid x h; simp [get_list_array_index_by_PID, h]
  · intro s pid hlen hne hout
    have hbne : s.bounds ≠ [] := by
      intro hb
      have := hlen
      rw [hb] at this
      exact hne (List.eq_nil_of_length_eq_zero this.symm)
    obtain ⟨b0, bs, hbeq⟩ : ∃ b0 bs, s.bounds = b0 :: bs := by
      cases hbb : s.bounds with
      | nil => exact absurd hbb hbne
      | cons x xs => exact ⟨x, xs, rfl⟩
    have hb0 : s.bounds.get? 0 = some b0 := by rw [hbeq]; rfl
    have hwalk := objWalkGo_out hlen hout (s.plist.length + 1) 0 b0 hb0 (by omega)
    simp only [get_list_array_index_obj, Option.bind_eq_bind, Option.bind_eq_none]
    intro bnd hbnd w hw
    rw [hb0, Option.some_inj] at hbnd
    rw [← hbnd, hwalk] at hw
    exact absurd hw (by simp)

/-- Witness for C2's amended claim: each conjunct applied at a concrete
store. -/
theorem C2_amended_witness :
    get_list_array_index_by_PID (pinit [8]) 9 = .sentinel
    ∧ get_list_array_index_by_PID (padd (pinit [8]) (pinit [8])) 8 = .sentinel
    ∧ get_list_array_index_by_PID (pinit [8]) 8 = .loc 0 0
    ∧ get_list_array_index_obj (pinit [8]) 9 = none :=
  ⟨C2_amended.1 (pinit [8]) 9 (by decide),
   C2_amended.2.1 (padd (pinit [8]) (pinit [8])) 8 (0, 0) (1, 0) [] (by decide),
   C2_amended.2.2.1 (pinit [8]) 8 (0, 0) (by decide),
   C2_amended.2.2.2 (pinit [8]) 9 (by decide) (by decide) (by decide)⟩

/-!
Inversion and counting lemmas for `_remove_` and the removal loop.
-/

theorem premove_inv {s : PState} {b : Nat} {locs : List Int} {t : PState} {r : List Particle}
    (h : premove s b locs = some (t, r)) :
    ∃ chunk bnd newChunk,
      s.plist.get? b = some chunk ∧ s.bounds.get? b = some bnd ∧
      npFancy chunk locs = some r ∧ npDelete chunk locs = some newChunk ∧
      ((newChunk ≠ [] ∧
          t = ⟨s.plist.set b newChunk, s.bounds.set b (recompBounds newChunk)⟩)
       ∨ (newChunk = [] ∧ 1 < s.plist.length ∧
          t = ⟨s.plist.eraseIdx b, s.bounds.erase bnd⟩)
       ∨ (newChunk = [] ∧ ¬ 1 < s.plist.length ∧
          t = ⟨s.plist.set b [], s.bounds.set b sentinelBounds⟩)) := by
  simp only [premove, Option.bind_eq_bind, Option.bind_eq_some] at h
  obtain ⟨chunk, hc, bnd, hb, rem, hrem, newChunk, hnew, h⟩ := h
  refine ⟨chunk, bnd, newChunk, hc, hb, ?_⟩
  by_cases h1 : newChunk ≠ []
  · rw [if_pos h1] at h
    simp only [Option.pure_def, Option.some_inj, Prod.mk.injEq] at h
    exact ⟨h.2 ▸ hrem, hnew, Or.inl ⟨h1, h.1.symm⟩⟩
  · rw [if_neg h1] at h
    have hnil : newChunk = [] := not_not.mp h1
    by_cases h2 : 1 < s.plist.length
    · rw [if_pos h2] at h
      simp only [Option.pure_def, Option.some_inj, Prod.mk.injEq] at h
      exact ⟨h.2 ▸ hrem, hnew, Or.inr (Or.inl ⟨hnil, h2, h.1.symm⟩)⟩
    · rw [if_neg h2] at h
      simp only [Option.pure_def, Option.some_inj, Prod.mk.injEq] at h
      exact ⟨h.2 ▸ hrem, hnew, Or.inr (Or.inr ⟨hnil, h2, h.1.symm⟩)⟩

theorem premove_removed_length {s : PState} {b : Nat} {locs : List Int} {t : PState}
    {r : List Particle} (h : premove s b locs = some (t, r)) : r.length = locs.length := by
  obtain ⟨chunk, bnd, newChunk, _, _, hf, _, _⟩ := premove_inv h
  exact optMap_length hf

theorem premove_length_cases {s : PState} {b : Nat} {locs : List Int} {t : PState}
    {r : List Particle} (h : premove s b locs = some (t, r)) :
    t.plist.length = s.plist.length ∨ t.plist.length + 1 = s.plist.length := by
  obtain ⟨chunk, bnd, newChunk, hc, _, _, _, hcase⟩ := premove_inv h
  have hblt : b < s.plist.length := get?_some_lt hc
  rcases hcase with ⟨_, rfl⟩ | ⟨_, _, rfl⟩ | ⟨_, _, rfl⟩
  · left; simp
  · right; simpa using List.length_eraseIdx_add_one hblt
  · left; simp

theorem premove_agree {s : PState} {b : Nat} {locs : List Int} {t : PState}
    {r : List Particle} (h : premove s b locs = some (t, r))
    (hlen : t.plist.length = s.plist.length) :
    ∀ k, k ≠ b → t.plist.get? k = s.plist.get? k := by
  obtain ⟨chunk, bnd, newChunk, hc, _, _, _, hcase⟩ := premove_inv h
  have hblt : b < s.plist.length := get?_some_lt hc
  rcases hcase with ⟨_, rfl⟩ | ⟨_, _, rfl⟩ | ⟨_, _, rfl⟩
  · intro k hk; exact List.get?_set_ne _ _ (Ne.symm hk)
  · exfalso
    have := List.length_eraseIdx_add_one hblt
    simp only at hlen
    omega
  · intro k hk; exact List.get?_set_ne _ _ (Ne.symm hk)

theorem removeBracketsGo_len_le : ∀ (l : List (Option (List Int))) {s : PState} {b : Nat}
    {acc : List Particle} {t : PState} {r : List Particle},
    removeBracketsGo s l b acc = some (t, r) → t.plist.length ≤ s.plist.length := by
  intro l
  induction l with
  | nil =>
    intro s b acc t r h
    simp only [removeBracketsGo, Option.some_inj, Prod.mk.injEq] at h
    rw [← h.1]
  | cons e rest ih =>
    intro s b acc t r h
    cases e with
    | none => exact ih h
    | some locs =>
      simp only [removeBracketsGo, Option.bind_eq_bind, Option.bind_eq_some] at h
      obtain ⟨p, hu, h⟩ := h
      obtain ⟨u, r1⟩ := p
      dsimp only at hu h
      have h1 := premove_length_cases hu
      have h2 := ih h
      omega

theorem removeBracketsGo_removed_length : ∀ (l : List (Option (List Int))) {s : PState}
    {b : Nat} {acc : List Particle} {t : PState} {r : List Particle},
    removeBracketsGo s l b acc = some (t, r) → r.length = acc.length + totalSlots l := by
  intro l
  induction l with
  | nil =>
    intro s b acc t r h
    simp only [removeBracketsGo, Option.some_inj, Prod.mk.injEq] at h
    simp [← h.2, totalSlots]
  | cons e rest ih =>
    intro s b acc t r h
    cases e with
    | none =>
      have := ih h
      simp only [totalSlots, List.map_cons, List.sum_cons, Option.getD_none,
        List.length_nil] at *
      simpa using this
    | some locs =>
      simp only [removeBracketsGo, Option.bind_eq_bind, Option.bind_eq_some] at h
      obtain ⟨p, hu, h⟩ := h
      obtain ⟨u, r1⟩ := p
      dsimp only at hu h
      have h1 := premove_removed_length hu
      have h2 := ih h
      simp only [totalSlots, List.map_cons, List.sum_cons, Option.getD_some] at *
      simp only [List.length_append] at h2
      omega

theorem plannedGo_congr {s u : PState} : ∀ (l : List (Option (List Int))) (b : Nat),
    (∀ k, b ≤ k → u.plist.get? k = s.plist.get? k) →
    plannedGo u l b = plannedGo s l b := by
  intro l
  induction l with
  | nil => intro b _; rfl
  | cons e rest ih =>
    intro b hag
    cases e with
    | none => exact ih (b + 1) fun k hk => hag k (by omega)
    | some locs =>
      simp only [plannedGo]
      rw [hag b (Nat.le_refl b), ih (b + 1) fun k hk => hag k (by omega)]

theorem removeBracketsGo_planned : ∀ (l : List (Option (List Int))) {s : PState} {b : Nat}
    {acc : List Particle} {t : PState} {r : List Particle},
    removeBracketsGo s l b acc = some (t, r) → t.plist.length = s.plist.length →
    ∃ rr, plannedGo s l b = some rr ∧ r = acc ++ rr := by
  intro l
  induction l with
  | nil =>
    intro s b acc t r h _
    simp only [removeBracketsGo, Option.some_inj, Prod.mk.injEq] at h
    exact ⟨[], rfl, by simp [← h.2]⟩
  | cons e rest ih =>
    intro s b acc t r h hlen
    cases e with
    | none =>
      obtain ⟨rr, hrr, hr⟩ := ih h hlen
      exact ⟨rr, hrr, hr⟩
    | some locs =>
      simp only [removeBracketsGo, Option.bind_eq_bind, Option.bind_eq_some] at h
      obtain ⟨p, hu, h⟩ := h
      obtain ⟨u, r1⟩ := p
      dsimp only at hu h
      have hul : u.plist.length = s.plist.length := by
        have h1 := premove_length_cases hu
        have h2 := removeBracketsGo_len_le rest h
        omega
      obtain ⟨chunk, bnd, newChunk, hc, _, hf, _, _⟩ := premove_inv hu
      obtain ⟨rr2, hrr2, hr⟩ := ih h (by omega)
      have hcongr : plannedGo u rest (b + 1) = plannedGo s rest (b + 1) :=
        plannedGo_congr rest (b + 1) fun k hk => premove_agree hu hul k (by omega)
      refine ⟨r1 ++ rr2, ?_, by simp [hr]⟩
      simp only [plannedGo, Option.bind_eq_bind, hc, Option.some_bind, hf, ← hcongr, hrr2]
      rfl

/-!
Claim C10: the shape of `pop`'s return value.
-/

theorem sum_set_nat : ∀ (m : List Nat) (i : Nat) (x v : Nat), m.get? i = some v →
    (m.set i x).sum + v = m.sum + x := by
  intro m
  induction m with
  | nil => intro i x v h; simp at h
  | cons a as ih =>
    intro i x v h
    cases i with
    | zero =>
      simp only [List.get?_cons_zero, Option.some_inj] at h
      subst h
      simp [List.set]
      omega
    | succ j =>
      simp only [List.get?_cons_succ] at h
      have := ih j x v h
      simp [List.set]
      omega

theorem totalSlots_set {acc : List (Option (List Int))} {b : Nat} {entry : Option (List Int)}
    (h : acc.get? b = some entry) (locs : List Int) :
    totalSlots (acc.set b (some locs)) + (entry.getD []).length =
      totalSlots acc + locs.length := by
  have hmap : (acc.set b (some locs)).map (fun e => (e.getD []).length) =
      (acc.map fun e => (e.getD []).length).set b locs.length := by
    simpa using List.map_set (f := fun e => (e.getD []).length) (l := acc)
  have hget : (acc.map fun e => (e.getD []).length).get? b = some (entry.getD []).length := by
    rw [List.get?_map, h]; rfl
  have := sum_set_nat (acc.map fun e => (e.getD []).length) b locs.length
    (entry.getD []).length hget
  simpa [totalSlots, hmap] using this

theorem groupGlob_go_slots {s : PState} {n : Nat} : ∀ (gs : List Int)
    (acc out : List (Option (List Int))),
    groupGlob.go s gs acc n = some out → totalSlots out = totalSlots acc + gs.length := by
  intro gs
  induction gs with
  | nil =>
    intro acc out h
    simp only [groupGlob.go, Option.some_inj] at h
    simp [← h]
  | cons g rest ih =>
    intro acc out h
    simp only [groupGlob.go, Option.bind_eq_bind, Option.bind_eq_some] at h
    obtain ⟨gn, hgn, bs, hbs, entry, hentry, h⟩ := h
    have step := ih _ out h
    have hset := totalSlots_set hentry
      (match entry with | none => [bs.2] | some l => l ++ [bs.2])
    cases entry with
    | none =>
      simp only [Option.getD_none, List.length_nil, Nat.add_zero, List.length_cons,
        List.length_nil] at hset
      simp only [List.length_cons] at *
      omega
    | some l =>
      simp only [Option.getD_some, List.length_append, List.length_cons,
        List.length_nil] at hset
      simp only [List.length_cons] at *
      omega

theorem totalSlots_replicate (n : Nat) : totalSlots (List.replicate n none) = 0 := by
  induction n with
  | zero => rfl
  | succ k ih => simpa [totalSlots, List.replicate_succ] using ih

theorem shapeResult_two {ps : List Particle} (h : 2 ≤ ps.length) :
    shapeResult ps = .multiple ps := by
  match ps with
  | [] => simp at h
  | [p] => simp at h
  | p :: q :: rest => rfl

/-- Claim C10: `pop`'s return value shape depends on the number of
removals — `None` when the request names no indices, the bare record when
exactly one is removed, and the list of removed records (one per requested
index) when several are. -/
theorem C10_pop_shape (s : PState) (gs : List Int) (t : PState) (r : PopResult)
    (h : popGlob s gs = some (t, r)) :
    (gs = [] → r = .nothing)
    ∧ (gs.length = 1 → ∃ p, r = .single p)
    ∧ (2 ≤ gs.length → ∃ ps, r = .multiple ps ∧ ps.length = gs.length) := by
  simp only [popGlob, Option.bind_eq_bind, Option.bind_eq_some] at h
  obtain ⟨l, hl, p, hp, m, hm, h⟩ := h
  obtain ⟨u, rem⟩ := p
  dsimp only at hp hm h
  simp only [Option.pure_def, Option.some_inj, Prod.mk.injEq] at h
  obtain ⟨rfl, hr⟩ := h
  have hlslots : totalSlots l = gs.length := by
    have := groupGlob_go_slots (s := s) (n := psize s) gs _ l hl
    simpa [totalSlots_replicate] using this
  have hremlen : rem.length = gs.length := by
    simp only [removeBrackets] at hp
    split at hp
    · have := removeBracketsGo_removed_length _ hp
      simpa [hlslots] using this
    · exact absurd hp (by simp)
  refine ⟨?_, ?_, ?_⟩
  · intro hgs
    subst hgs
    have : rem = [] := List.eq_nil_of_length_eq_zero (by simpa using hremlen)
    rw [← hr, this]; rfl
  · intro hgs
    rw [hgs] at hremlen
    match rem, hremlen with
    | [p], _ => exact ⟨p, by rw [← hr]; rfl⟩
  · intro hgs
    refine ⟨rem, ?_, hremlen⟩
    rw [← hr, shapeResult_two (by omega)]

/-- Witness for C10 at concrete inputs: an empty request, a one-index
request and a two-index request. -/
theorem C10_witness :
    (∃ t r, popGlob (pinit [7, 8]) [0] = some (t, r) ∧ ∃ p, r = .single p)
    ∧ (∃ t r, popGlob (pinit [7, 8, 9]) [0, 1] = some (t, r) ∧
        ∃ ps, r = .multiple ps ∧ ps.length = 2)
    ∧ (∃ t r, popGlob (pinit [7, 8]) [] = some (t, r) ∧ r = .nothing) := by
  refine ⟨⟨⟨[[⟨8⟩]], [(8, 8, 1)]⟩, .single ⟨7⟩, by decide, ?_⟩,
    ⟨⟨[[⟨9⟩]], [(9, 9, 1)]⟩, .multiple [⟨7⟩, ⟨8⟩], by decide, ?_⟩,
    ⟨⟨[[⟨7⟩, ⟨8⟩]], [(7, 8, 2)]⟩, .nothing, by decide, ?_⟩⟩
  · exact (C10_pop_shape (pinit [7, 8]) [0] ⟨[[⟨8⟩]], [(8, 8, 1)]⟩ (.single ⟨7⟩)
      (by decide)).2.1 (by decide)
  · obtain ⟨ps, hps, hlen⟩ := (C10_pop_shape (pinit [7, 8, 9]) [0, 1]
      ⟨[[⟨9⟩]], [(9, 9, 1)]⟩ (.multiple [⟨7⟩, ⟨8⟩]) (by decide)).2.2 (by decide)
    exact ⟨ps, hps, by rw [hlen]; rfl⟩
  · exact (C10_pop_shape (pinit [7, 8]) [] ⟨[[⟨7⟩, ⟨8⟩]], [(7, 8, 2)]⟩ .nothing
      (by decide)).1 (by decide)

/-!
Claim C3: the order of the records `pop` returns.
-/

/-- Counterexample for C3: on a store with chunks `[1,2]` and `[3,4]`,
requesting removal of global indices `[2, 0]` — the records with ids 3 and
1, in that order — returns `[1, 3]`: chunk order, not request order. -/
theorem C3_order_cex :
    (popGlob c3s [2, 0]).map (·.2) = some (.multiple [⟨1⟩, ⟨3⟩])
    ∧ getitem c3s 2 = some ⟨3⟩
    ∧ getitem c3s 0 = some ⟨1⟩
    ∧ PopResult.multiple ([⟨1⟩, ⟨3⟩] : List Particle) ≠ .multiple [⟨3⟩, ⟨1⟩] := by decide

/-- Amended claim C3: a multi-index removal returns the removed records
grouped per chunk in ascending chunk order, and within one chunk in the
order the slots were requested (established here for runs that empty no
chunk — an emptied chunk is dropped mid-loop and shifts the later bracket
targets); a removal naming a slot that is out of range for its chunk fails
(numpy raises IndexError) instead of removing anything. -/
theorem C3_pop_order :
    (∀ s l t r, removeBrackets s l = some (t, r) → t.plist.length = s.plist.length →
      plannedRemoved s l = some r)
    ∧ (∀ (chunk : List Particle) (bnds : List Bounds) (locs : List Int) (j : Int),
        j ∈ locs → normLoc chunk.length j = none →
        removeBrackets ⟨[chunk], bnds⟩ [some locs] = none) := by
  constructor
  · intro s l t r h hlen
    simp only [removeBrackets] at h
    split at h
    · obtain ⟨rr, hrr, hr⟩ := removeBracketsGo_planned l h hlen
      simpa [plannedRemoved, hrr] using hr.symm
    · exact absurd h (by simp)
  · intro chunk bnds locs j hj hnorm
    have hfan : npFancy chunk locs = none := by
      apply optMap_none_of_mem hj
      simp [npGet, hnorm]
    cases bnds with
    | nil => simp [removeBrackets, removeBracketsGo, premove]
    | cons b0 bs =>
      simp [removeBrackets, removeBracketsGo, premove, hfan]

/-- Witness for C3's amended claim at concrete inputs. -/
theorem C3_witness :
    plannedRemoved c3s [some [0], some [0]] = some [⟨1⟩, ⟨3⟩]
    ∧ removeBrackets ⟨[[⟨1⟩]], [(1, 1, 1)]⟩ [some [5]] = none :=
  ⟨C3_pop_order.1 c3s [some [0], some [0]] ⟨[[⟨2⟩], [⟨4⟩]], [(2, 2, 1), (4, 4, 1)]⟩
      [⟨1⟩, ⟨3⟩] (by decide) (by decide),
   C3_pop_order.2 [⟨1⟩] [(1, 1, 1)] [5] 5 (by decide) (by decide)⟩

/-!
Claim C4: summary/chunk consistency.  First, facts about the min/max folds
that produce the summaries.
-/

theorem foldl_min_acc : ∀ (l : List Int) (a x : Int),
    l.foldl min (min a x) = min a (l.foldl min x) := by
  intro l
  induction l with
  | nil => intro a x; rfl
  | cons q qs ih =>
    intro a x
    simp only [List.foldl_cons, min_assoc]
    exact ih a (min x q)

theorem foldl_max_acc : ∀ (l : List Int) (a x : Int),
    l.foldl max (max a x) = max a (l.foldl max x) := by
  intro l
  induction l with
  | nil => intro a x; rfl
  | cons q qs ih =>
    intro a x
    simp only [List.foldl_cons, max_assoc]
    exact ih a (max x q)

theorem foldl_min_mem : ∀ (l : List Int) (a : Int), l.foldl min a = a ∨ l.foldl min a ∈ l := by
  intro l
  induction l with
  | nil => intro a; left; rfl
  | cons x xs ih =>
    intro a
    simp only [List.foldl_cons]
    rcases ih (min a x) with h | h
    · rcases min_choice a x with hc | hc
      · left; rw [h, hc]
      · right; rw [h, hc]; exact List.mem_cons_self x xs
    · right; exact List.mem_cons_of_mem x h

theorem foldl_max_mem : ∀ (l : List Int) (a : Int), l.foldl max a = a ∨ l.foldl max a ∈ l := by
  intro l
  induction l with
  | nil => intro a; left; rfl
  | cons x xs ih =>
    intro a
    simp only [List.foldl_cons]
    rcases ih (max a x) with h | h
    · rcases max_choice a x with hc | hc
      · left; rw [h, hc]
      · right; rw [h, hc]; exact List.mem_cons_self x xs
    · right; exact List.mem_cons_of_mem x h

theorem foldl_min_le_init : ∀ (l : List Int) (a : Int), l.foldl min a ≤ a := by
  intro l
  induction l with
  | nil => intro a; exact le_refl a
  | cons x xs ih =>
    intro a
    simp only [List.foldl_cons]
    exact le_trans (ih (min a x)) (min_le_left a x)

theorem foldl_max_ge_init : ∀ (l : List Int) (a : Int), a ≤ l.foldl max a := by
  intro l
  induction l with
  | nil => intro a; exact le_refl a
  | cons x xs ih =>
    intro a
    simp only [List.foldl_cons]
    exact le_trans (le_max_left a x) (ih (max a x))

theorem foldl_min_le_mem : ∀ (l : List Int) (a x : Int), x ∈ l → l.foldl min a ≤ x := by
  intro l
  induction l with
  | nil => intro a x h; simp at h
  | cons y ys ih =>
    intro a x h
    simp only [List.foldl_cons]
    rcases List.mem_cons.mp h with rfl | h
    · exact le_trans (foldl_min_le_init ys (min a x)) (min_le_right a x)
    · exact ih (min a y) x h

theorem foldl_max_ge_mem : ∀ (l : List Int) (a x : Int), x ∈ l → x ≤ l.foldl max a := by
  intro l
  induction l with
  | nil => intro a x h; simp at h
  | cons y ys ih =>
    intro a x h
    simp only [List.foldl_cons]
    rcases List.mem_cons.mp h with rfl | h
    · exact le_trans (le_max_right a x) (foldl_max_ge_init ys (max a x))
    · exact ih (max a y) x h

theorem foldl_pid_min (c : List Particle) (a : Int) :
    c.foldl (fun b p => min b p.pid) a = (chunkIds c).foldl min a := by
  rw [chunkIds, List.foldl_map]

theorem foldl_pid_max (c : List Particle) (a : Int) :
    c.foldl (fun b p => max b p.pid) a = (chunkIds c).foldl max a := by
  rw [chunkIds, List.foldl_map]

theorem npMinIds_mem {c : List Particle} (h : c ≠ []) : npMinIds c ∈ chunkIds c := by
  match c, h with
  | p :: ps, _ =>
    simp only [npMinIds, foldl_pid_min]
    rcases foldl_min_mem (chunkIds ps) p.pid with h1 | h1
    · rw [h1]; simp [chunkIds]
    · simp only [chunkIds, List.map_cons, List.mem_cons]
      right
      simpa [chunkIds] using h1

theorem npMaxIds_mem {c : List Particle} (h : c ≠ []) : npMaxIds c ∈ chunkIds c := by
  match c, h with
  | p :: ps, _ =>
    simp only [npMaxIds, foldl_pid_max]
    rcases foldl_max_mem (chunkIds ps) p.pid with h1 | h1
    · rw [h1]; simp [chunkIds]
    · simp only [chunkIds, List.map_cons, List.mem_cons]
      right
      simpa [chunkIds] using h1

theorem npMinIds_le {c : List Particle} (hne : c ≠ []) :
    ∀ x ∈ chunkIds c, npMinIds c ≤ x := by
  match c, hne with
  | p :: ps, _ =>
    intro x hx
    simp only [npMinIds, foldl_pid_min]
    rw [chunkIds, List.map_cons, List.mem_cons] at hx
    rcases hx with rfl | hx2
    · exact foldl_min_le_init (chunkIds ps) p.pid
    · exact foldl_min_le_mem (chunkIds ps) p.pid x hx2

theorem npMaxIds_ge {c : List Particle} (hne : c ≠ []) :
    ∀ x ∈ chunkIds c, x ≤ npMaxIds c := by
  match c, hne with
  | p :: ps, _ =>
    intro x hx
    simp only [npMaxIds, foldl_pid_max]
    rw [chunkIds, List.map_cons, List.mem_cons] at hx
    rcases hx with rfl | hx2
    · exact foldl_max_ge_init (chunkIds ps) p.pid
    · exact foldl_max_ge_mem (chunkIds ps) p.pid x hx2

theorem npMinIds_le_npMaxIds {c : List Particle} (hne : c ≠ []) :
    npMinIds c ≤ npMaxIds c :=
  npMinIds_le hne _ (npMaxIds_mem hne)

theorem buildBounds_eq {c : List Particle} (h : c ≠ []) :
    buildBounds c = (min int32max (npMinIds c), max int32min (npMaxIds c), c.length) := by
  match c, h with
  | p :: ps, _ =>
    simp only [buildBounds, npMinIds, npMaxIds, List.foldl_cons, foldl_pid_min, foldl_pid_max,
      Prod.mk.injEq]
    refine ⟨?_, ?_, trivial⟩
    · rw [min_comm int32max p.pid, ← foldl_min_acc]
      congr 1
      rw [min_comm]
    · rw [max_comm int32min p.pid, ← foldl_max_acc]
      congr 1
      rw [max_comm]

theorem goodBnd_count {c : List Particle} {b : Bounds} (h : goodBnd c b) :
    b.2.2 = c.length := by
  rcases h with ⟨rfl, rfl⟩ | ⟨hne, rfl | rfl⟩
  · rfl
  · rfl
  · rfl

theorem goodBnd_bound {c : List Particle} {b : Bounds} (h : goodBnd c b) :
    ∀ x ∈ chunkIds c, b.1 ≤ x ∧ x ≤ b.2.1 := by
  intro x hx
  rcases h with ⟨rfl, rfl⟩ | ⟨hne, rfl | rfl⟩
  · simp [chunkIds] at hx
  · exact ⟨npMinIds_le hne x hx, npMaxIds_ge hne x hx⟩
  · rw [buildBounds_eq hne]
    exact ⟨le_trans (min_le_right _ _) (npMinIds_le hne x hx),
      le_trans (npMaxIds_ge hne x hx) (le_max_right _ _)⟩

theorem goodBnd_endpoint {c : List Particle} {b : Bounds} (h : goodBnd c b) (hne : c ≠ []) :
    b.1 ∈ chunkIds c ∨ (b.1 = int32max ∧ b.2.1 ∈ chunkIds c) := by
  rcases h with ⟨rfl, _⟩ | ⟨_, rfl | rfl⟩
  · exact absurd rfl hne
  · exact Or.inl (npMinIds_mem hne)
  · rw [buildBounds_eq hne]
    by_cases hm : npMinIds c ≤ int32max
    · left
      simpa [min_eq_right hm] using npMinIds_mem hne
    · right
      push_neg at hm
      refine ⟨by simp [min_eq_left (le_of_lt hm)], ?_⟩
      have hMm : npMinIds c ≤ npMaxIds c := npMinIds_le_npMaxIds hne
      have : int32min ≤ npMaxIds c := by
        have h1 : int32min < int32max := by decide
        omega
      simpa [max_eq_right this] using npMaxIds_mem hne

theorem goodBnd_max_endpoint {c : List Particle} {b : Bounds} (h : goodBnd c b)
    (hne : c ≠ []) (hgt : int32min < b.2.1) : b.2.1 ∈ chunkIds c := by
  rcases h with ⟨rfl, _⟩ | ⟨_, rfl | rfl⟩
  · exact absurd rfl hne
  · exact npMaxIds_mem hne
  · rw [buildBounds_eq hne] at hgt ⊢
    simp only at hgt ⊢
    by_cases hM : int32min ≤ npMaxIds c
    · simpa [max_eq_right hM] using npMaxIds_mem hne
    · push_neg at hM
      rw [max_eq_left (le_of_lt hM)] at hgt
      omega

theorem goodBnd_shared {c1 c2 : List Particle} {b : Bounds}
    (h1 : goodBnd c1 b) (h2 : goodBnd c2 b) (hne : c1 ≠ []) :
    ∃ x, x ∈ chunkIds c1 ∧ x ∈ chunkIds c2 := by
  have hne2 : c2 ≠ [] := by
    intro hc2
    have hcnt1 := goodBnd_count h1
    have hcnt2 := goodBnd_count h2
    rw [hc2] at hcnt2
    simp only [List.length_nil] at hcnt2
    rw [hcnt2] at hcnt1
    exact hne (List.eq_nil_of_length_eq_zero hcnt1.symm)
  have hle : b.1 ≤ b.2.1 := by
    obtain ⟨p, hp⟩ : ∃ p, p ∈ c2 := List.exists_mem_of_ne_nil c2 hne2
    have hx : p.pid ∈ chunkIds c2 := List.mem_map_of_mem _ hp
    have := goodBnd_bound h2 p.pid hx
    omega
  have hminmax : (int32min : Int) < int32max := by decide
  rcases goodBnd_endpoint h1 hne with hq1 | ⟨hb1, hq1⟩ <;>
    rcases goodBnd_endpoint h2 hne2 with hq2 | ⟨hb2, hq2⟩
  · exact ⟨b.1, hq1, hq2⟩
  · have hgt : int32min < b.2.1 := by omega
    exact ⟨b.2.1, goodBnd_max_endpoint h1 hne hgt, hq2⟩
  · have hgt : int32min < b.2.1 := by omega
    exact ⟨b.2.1, hq1, goodBnd_max_endpoint h2 hne2 hgt⟩
  · exact ⟨b.2.1, hq1, hq2⟩

theorem uniq_disjoint {L : List (List Particle)} (h : (L.flatMap chunkIds).Nodup)
    {i j : Nat} {ci cj : List Particle} (hi : L.get? i = some ci) (hj : L.get? j = some cj)
    (hij : i ≠ j) {x : Int} (hxi : x ∈ chunkIds ci) (hxj : x ∈ chunkIds cj) : False := by
  have hpair := (List.nodup_flatMap.mp h).2
  have hig : i < L.length := get?_some_lt hi
  have hjg : j < L.length := get?_some_lt hj
  rw [List.pairwise_iff_getElem] at hpair
  have hgeti : L[i] = ci := by
    have := hi
    rw [List.get?_eq_getElem?, List.getElem?_eq_getElem hig, Option.some_inj] at this
    exact this
  have hgetj : L[j] = cj := by
    have := hj
    rw [List.get?_eq_getElem?, List.getElem?_eq_getElem hjg, Option.some_inj] at this
    exact this
  rcases Nat.lt_or_ge i j with hlt | hge
  · have hd := hpair i j hig hjg hlt
    rw [hgeti, hgetj] at hd
    exact hd hxi hxj
  · have hlt : j < i := by omega
    have hd := hpair j i hjg hig hlt
    rw [hgeti, hgetj] at hd
    exact hd hxj hxi

theorem erase_eq_eraseIdx : ∀ (bl : List Bounds) (b : Nat) (bnd : Bounds),
    bl.get? b = some bnd → (∀ j, j < b → bl.get? j ≠ some bnd) →
    bl.erase bnd = bl.eraseIdx b := by
  intro bl
  induction bl with
  | nil => intro b bnd h _; simp at h
  | cons hd tl ih =>
    intro b bnd hget hne
    cases b with
    | zero =>
      simp only [List.get?_cons_zero, Option.some_inj] at hget
      subst hget
      simp [List.erase_cons_head, List.eraseIdx]
    | succ k =>
      have hhd : hd ≠ bnd := by
        intro hcon
        exact hne 0 (Nat.succ_pos k) (by simp [hcon])
      simp only [List.get?_cons_succ] at hget
      rw [List.erase_cons_tail (by simpa using hhd), List.eraseIdx]
      congr 1
      exact ih k bnd hget fun j hj => hne (j + 1) (by omega)

/-!
Sublist / permutation facts about the identity multiset under the mutators.
-/

theorem filter_enum_sublist (P : Nat × Particle → Bool) :
    ∀ (l : List Particle) (n : Nat), (((List.enumFrom n l).filter P).map (·.2)).Sublist l := by
  intro l
  induction l with
  | nil => intro n; simp
  | cons x xs ih =>
    intro n
    simp only [List.enumFrom, List.filter]
    cases P (n, x) with
    | true => simpa using List.Sublist.cons₂ x (ih (n + 1))
    | false => exact List.Sublist.cons x (ih (n + 1))

theorem npDelete_sublist {chunk : List Particle} {locs : List Int} {nc : List Particle}
    (h : npDelete chunk locs = some nc) : nc.Sublist chunk := by
  simp only [npDelete, Option.bind_eq_bind, Option.bind_eq_some] at h
  obtain ⟨js, _, h⟩ := h
  simp only [Option.pure_def, Option.some_inj] at h
  rw [← h, List.enum]
  exact filter_enum_sublist _ chunk 0

theorem flatMap_set_sublist :
    ∀ (L : List (List Particle)) (b : Nat) (ci ci' : List Particle),
    L.get? b = some ci → ci'.Sublist ci →
    ((L.set b ci').flatMap chunkIds).Sublist (L.flatMap chunkIds) := by
  intro L
  induction L with
  | nil => intro b ci ci' h _; simp at h
  | cons hd tl ih =>
    intro b ci ci' hget hsub
    cases b with
    | zero =>
      simp only [List.get?_cons_zero, Option.some_inj] at hget
      subst hget
      simp only [List.set, List.flatMap_cons]
      exact List.Sublist.append (hsub.map Particle.pid) (List.Sublist.refl _)
    | succ k =>
      simp only [List.get?_cons_succ] at hget
      simp only [List.set, List.flatMap_cons]
      exact List.Sublist.append (List.Sublist.refl _) (ih k ci ci' hget hsub)

theorem flatMap_eraseIdx_sublist {f : List Particle → List Int} :
    ∀ (L : List (List Particle)) (b : Nat),
    ((L.eraseIdx b).flatMap f).Sublist (L.flatMap f) := by
  intro L
  induction L with
  | nil => intro b; simp
  | cons hd tl ih =>
    intro b
    cases b with
    | zero =>
      simp only [List.eraseIdx, List.flatMap_cons]
      exact List.sublist_append_right _ _
    | succ k =>
      simp only [List.eraseIdx, List.flatMap_cons]
      exact List.Sublist.append (List.Sublist.refl _) (ih k)

theorem get?_eraseIdx (l : List α) (k i : Nat) :
    (l.eraseIdx k).get? i = if i < k then l.get? i else l.get? (i + 1) := by
  simp only [List.get?_eq_getElem?, List.getElem?_eraseIdx]

theorem flatMap_eraseIdx_perm : ∀ (L : List (List Particle)) (j : Nat) (cj : List Particle),
    L.get? j = some cj →
    (chunkIds cj ++ (L.eraseIdx j).flatMap chunkIds).Perm (L.flatMap chunkIds) := by
  intro L
  induction L with
  | nil => intro j cj h; simp at h
  | cons d L2 ih =>
    intro j cj hj
    cases j with
    | zero =>
      simp only [List.get?_cons_zero, Option.some_inj] at hj
      subst hj
      simp only [List.eraseIdx, List.flatMap_cons]
      exact List.Perm.refl _
    | succ k =>
      simp only [List.get?_cons_succ] at hj
      simp only [List.eraseIdx, List.flatMap_cons]
      rw [← List.append_assoc]
      refine (List.perm_append_comm.append_right _).trans ?_
      rw [List.append_assoc]
      exact List.Perm.append_left _ (ih k cj hj)

theorem flatMap_merge_perm : ∀ (L : List (List Particle)) (i j : Nat)
    (ci cj : List Particle), i < j → L.get? i = some ci → L.get? j = some cj →
    (((L.set i (ci ++ cj)).eraseIdx j).flatMap chunkIds).Perm (L.flatMap chunkIds) := by
  intro L
  induction L with
  | nil => intro i j ci cj _ h _; simp at h
  | cons d L2 ih =>
    intro i j ci cj hij hi hj
    cases i with
    | zero =>
      simp only [List.get?_cons_zero, Option.some_inj] at hi
      subst hi
      cases j with
      | zero => omega
      | succ k =>
        simp only [List.get?_cons_succ] at hj
        simp only [List.set, List.eraseIdx, List.flatMap_cons]
        have hperm := flatMap_eraseIdx_perm L2 k cj hj
        have hsplit : chunkIds (d ++ cj) = chunkIds d ++ chunkIds cj := by
          simp [chunkIds]
        rw [hsplit, List.append_assoc]
        exact List.Perm.append_left _ hperm
    | succ i2 =>
      cases j with
      | zero => omega
      | succ k =>
        simp only [List.get?_cons_succ] at hi hj
        simp only [List.set, List.eraseIdx, List.flatMap_cons]
        exact List.Perm.append_left _ (ih i2 k ci cj (by omega) hi hj)

theorem premove_chunk_ne_nil {chunk : List Particle} {locs : List Int} {r : List Particle}
    (hlocs : locs ≠ []) (hf : npFancy chunk locs = some r) : chunk ≠ [] := by
  match locs, hlocs with
  | j :: rest, _ =>
    simp only [npFancy, optMap, Option.bind_eq_bind, Option.bind_eq_some] at hf
    obtain ⟨p, hp, _⟩ := hf
    simp only [npGet, Option.bind_eq_some] at hp
    obtain ⟨jn, _, hget⟩ := hp
    intro hcon
    rw [hcon] at hget
    simp at hget

theorem premove_preserved {s t : PState} {b : Nat} {locs : List Int} {r : List Particle}
    (hinv : StoreInv s) (huniq : UniqIds s) (hlocs : locs ≠ [])
    (h : premove s b locs = some (t, r)) : StoreInv t ∧ UniqIds t := by
  obtain ⟨chunk, bnd, newChunk, hc, hbnd, hf, hdel, hcase⟩ := premove_inv h
  have hblt : b < s.plist.length := get?_some_lt hc
  have hbltb : b < s.bounds.length := get?_some_lt hbnd
  have hchne : chunk ≠ [] := premove_chunk_ne_nil hlocs hf
  have hsub : newChunk.Sublist chunk := npDelete_sublist hdel
  have hgoodb : goodBnd chunk bnd := hinv.2 b chunk bnd hc hbnd
  rcases hcase with ⟨hnc, rfl⟩ | ⟨hnc, hgt1, rfl⟩ | ⟨hnc, hle1, rfl⟩
  · constructor
    · constructor
      · simpa using hinv.1
      · intro i c bb hic hib
        simp only at hic hib
        by_cases hib2 : i = b
        · subst hib2
          rw [List.get?_set_eq_of_lt _ hblt, Option.some_inj] at hic
          rw [List.get?_set_eq_of_lt _ hbltb, Option.some_inj] at hib
          subst hic; subst hib
          exact Or.inr ⟨hnc, Or.inl rfl⟩
        · rw [List.get?_set_ne _ _ (Ne.symm hib2)] at hic
          rw [List.get?_set_ne _ _ (Ne.symm hib2)] at hib
          exact hinv.2 i c bb hic hib
    · exact (flatMap_set_sublist s.plist b chunk newChunk hc hsub).nodup huniq
  · have herase : s.bounds.erase bnd = s.bounds.eraseIdx b := by
      apply erase_eq_eraseIdx s.bounds b bnd hbnd
      intro j hj hcon
      have hjb : j < s.bounds.length := by omega
      have hjp : j < s.plist.length := by rw [← hinv.1]; exact hjb
      obtain ⟨cj, hcj⟩ : ∃ cj, s.plist.get? j = some cj := by
        rw [List.get?_eq_getElem?, List.getElem?_eq_getElem hjp]
        exact ⟨_, rfl⟩
      have hgoodj : goodBnd cj bnd := hinv.2 j cj bnd hcj hcon
      obtain ⟨x, hx1, hx2⟩ := goodBnd_shared hgoodb hgoodj hchne
      exact uniq_disjoint huniq hc hcj (by omega) hx1 hx2
    constructor
    · constructor
      · simp only [herase]
        have h0 := hinv.1
        have h1 := List.length_eraseIdx_add_one hblt
        have h2 := List.length_eraseIdx_add_one hbltb
        omega
      · intro i c bb hic hib
        simp only [herase] at hib
        simp only at hic
        rw [get?_eraseIdx] at hic hib
        by_cases hib2 : i < b
        · rw [if_pos hib2] at hic hib
          exact hinv.2 i c bb hic hib
        · rw [if_neg hib2] at hic hib
          exact hinv.2 (i + 1) c bb hic hib
    · exact (flatMap_eraseIdx_sublist s.plist b).nodup huniq
  · constructor
    · constructor
      · simpa using hinv.1
      · intro i c bb hic hib
        simp only at hic hib
        by_cases hib2 : i = b
        · subst hib2
          rw [List.get?_set_eq_of_lt _ hblt, Option.some_inj] at hic
          rw [List.get?_set_eq_of_lt _ hbltb, Option.some_inj] at hib
          subst hic; subst hib
          exact Or.inl ⟨rfl, rfl⟩
        · rw [List.get?_set_ne _ _ (Ne.symm hib2)] at hic
          rw [List.get?_set_ne _ _ (Ne.symm hib2)] at hib
          exact hinv.2 i c bb hic hib
    · exact (flatMap_set_sublist s.plist b chunk [] hc (List.nil_sublist chunk)).nodup huniq

theorem removeBracketsGo_preserved : ∀ (l : List (Option (List Int))) {s : PState} {b : Nat}
    {acc : List Particle} {t : PState} {r : List Particle},
    (∀ e ∈ l, e = none ∨ ∃ ls, e = some ls ∧ ls ≠ []) →
    StoreInv s → UniqIds s →
    removeBracketsGo s l b acc = some (t, r) → StoreInv t ∧ UniqIds t := by
  intro l
  induction l with
  | nil =>
    intro s b acc t r _ hinv huniq h
    simp only [removeBracketsGo, Option.some_inj, Prod.mk.injEq] at h
    rw [← h.1]
    exact ⟨hinv, huniq⟩
  | cons e rest ih =>
    intro s b acc t r hents hinv huniq h
    cases e with
    | none => exact ih (fun x hx => hents x (List.mem_cons_of_mem _ hx)) hinv huniq h
    | some locs =>
      have hlocs : locs ≠ [] := by
        rcases hents (some locs) (List.mem_cons_self _ _) with hcon | ⟨ls, hls, hne⟩
        · simp at hcon
        · rw [Option.some_inj] at hls
          rw [hls]; exact hne
      simp only [removeBracketsGo, Option.bind_eq_bind, Option.bind_eq_some] at h
      obtain ⟨p, hu, h⟩ := h
      obtain ⟨u, r1⟩ := p
      dsimp only at hu h
      obtain ⟨hinv2, huniq2⟩ := premove_preserved hinv huniq hlocs hu
      exact ih (fun x hx => hents x (List.mem_cons_of_mem _ hx)) hinv2 huniq2 h

theorem groupGlob_entries {s : PState} {gs : List Int} {l : List (Option (List Int))}
    (h : groupGlob s gs = some l) :
    ∀ e ∈ l, e = none ∨ ∃ ls, e = some ls ∧ ls ≠ [] := by
  have main : ∀ (gs2 : List Int) (acc out : List (Option (List Int))) (n : Nat),
      (∀ e ∈ acc, e = none ∨ ∃ ls, e = some ls ∧ ls ≠ []) →
      groupGlob.go s gs2 acc n = some out →
      ∀ e ∈ out, e = none ∨ ∃ ls, e = some ls ∧ ls ≠ [] := by
    intro gs2
    induction gs2 with
    | nil =>
      intro acc out n hacc hgo
      simp only [groupGlob.go, Option.some_inj] at hgo
      rw [← hgo]; exact hacc
    | cons g rest ih =>
      intro acc out n hacc hgo
      simp only [groupGlob.go, Option.bind_eq_bind, Option.bind_eq_some] at hgo
      obtain ⟨gn, _, bs, _, entry, hentry, hgo⟩ := hgo
      refine ih _ out n ?_ hgo
      intro e he
      rcases List.mem_or_eq_of_mem_set he with he2 | rfl
      · exact hacc e he2
      · right
        cases entry with
        | none => exact ⟨[bs.2], rfl, by simp⟩
        | some ls => exact ⟨ls ++ [bs.2], rfl, by simp⟩
  simp only [groupGlob] at h
  exact main gs _ l (psize s) (fun e he => Or.inl (List.eq_of_mem_replicate he)) h

theorem findPair_go_spec {s : PState} : ∀ (l : List Nat) (trg : Option Nat) (i j : Nat),
    l.Sorted (· < ·) → (∀ m ∈ l, m < s.plist.length) →
    (∀ tv, trg = some tv → tv < s.plist.length ∧ ∀ m ∈ l, tv < m) →
    findPair.go s l trg = some (some (i, j)) → i < j ∧ j < s.plist.length := by
  intro l
  induction l with
  | nil =>
    intro trg i j _ _ _ h
    simp [findPair.go] at h
  | cons k rest ih =>
    intro trg i j hsort hmem htrg h
    simp only [findPair.go, Option.bind_eq_bind, Option.bind_eq_some] at h
    obtain ⟨bnd, hbnd, h⟩ := h
    split at h
    · cases trg with
      | none =>
        refine ih (some k) i j hsort.of_cons (fun m hm => hmem m (List.mem_cons_of_mem _ hm))
          ?_ h
        intro tv htv
        rw [Option.some_inj] at htv
        subst htv
        exact ⟨hmem k (List.mem_cons_self _ _), fun m hm => List.rel_of_sorted_cons hsort m hm⟩
      | some i0 =>
        simp only [Option.some_inj, Prod.mk.injEq] at h
        obtain ⟨rfl, rfl⟩ := h
        obtain ⟨h4, h5⟩ := htrg _ rfl
        exact ⟨h5 _ (List.mem_cons_self _ _), hmem _ (List.mem_cons_self _ _)⟩
    · exact ih trg i j hsort.of_cons (fun m hm => hmem m (List.mem_cons_of_mem _ hm))
        (fun tv htv => ⟨(htrg tv htv).1,
          fun m hm => (htrg tv htv).2 m (List.mem_cons_of_mem _ hm)⟩) h

theorem findPair_spec {s : PState} {i j : Nat} (h : findPair s = some (some (i, j))) :
    i < j ∧ j < s.plist.length := by
  refine findPair_go_spec (List.range s.plist.length) none i j ?_ ?_ ?_ h
  · exact List.sorted_lt_range _
  · intro m hm; exact List.mem_range.mp hm
  · intro tv htv; simp at htv

theorem mergeStep_preserved {s t : PState} {i j : Nat}
    (hinv : StoreInv s) (huniq : UniqIds s) (hij : i < j)
    (h : mergeStep s i j = some t) : StoreInv t ∧ UniqIds t := by
  simp only [mergeStep, Option.bind_eq_bind, Option.bind_eq_some] at h
  obtain ⟨ci, hci, cj, hcj, h⟩ := h
  have hilt : i < s.plist.length := get?_some_lt hci
  have hjlt : j < s.plist.length := get?_some_lt hcj
  have hiltb : i < s.bounds.length := by rw [hinv.1]; exact hilt
  have hjltb : j < s.bounds.length := by rw [hinv.1]; exact hjlt
  split at h
  · exact absurd h (by simp)
  · have hmerged : ci ++ cj ≠ [] := by assumption
    simp only [Option.pure_def, Option.some_inj] at h
    subst h
    constructor
    · constructor
      · simp only
        have h1 : j < (s.plist.set i (ci ++ cj)).length := by simpa using hjlt
        have h2 : j < (s.bounds.set i (recompBounds (ci ++ cj))).length := by
          simpa using hjltb
        have h3 := List.length_eraseIdx_add_one h1
        have h4 := List.length_eraseIdx_add_one h2
        have h0 := hinv.1
        simp only [List.length_set] at h3 h4
        omega
      · intro k c bb hkc hkb
        simp only [get?_eraseIdx] at hkc hkb
        by_cases hkj : k < j
        · rw [if_pos hkj] at hkc hkb
          by_cases hki : k = i
          · subst hki
            rw [List.get?_set_eq_of_lt _ hilt, Option.some_inj] at hkc
            rw [List.get?_set_eq_of_lt _ hiltb, Option.some_inj] at hkb
            subst hkc; subst hkb
            exact Or.inr ⟨hmerged, Or.inl rfl⟩
          · rw [List.get?_set_ne _ _ (Ne.symm hki)] at hkc
            rw [List.get?_set_ne _ _ (Ne.symm hki)] at hkb
            exact hinv.2 k c bb hkc hkb
        · rw [if_neg hkj] at hkc hkb
          have hki : k + 1 ≠ i := by omega
          rw [List.get?_set_ne _ _ (Ne.symm hki)] at hkc
          rw [List.get?_set_ne _ _ (Ne.symm hki)] at hkb
          exact hinv.2 (k + 1) c bb hkc hkb
    · exact (flatMap_merge_perm s.plist i j ci cj hij hci hcj).symm.nodup huniq

theorem mergeLoop_preserved : ∀ (fuel : Nat) {s t : PState},
    StoreInv s → UniqIds s → mergeLoop fuel s = some t → StoreInv t ∧ UniqIds t := by
  intro fuel
  induction fuel with
  | zero =>
    intro s t hinv huniq h
    simp only [mergeLoop, Option.some_inj] at h
    rw [← h]; exact ⟨hinv, huniq⟩
  | succ f ih =>
    intro s t hinv huniq h
    simp only [mergeLoop, Option.bind_eq_bind, Option.bind_eq_some] at h
    obtain ⟨p, hp, h⟩ := h
    match p with
    | none =>
      simp only [Option.some_inj] at h
      rw [← h]; exact ⟨hinv, huniq⟩
    | some ⟨i, j⟩ =>
      simp only [Option.bind_eq_some] at h
      obtain ⟨u, hu, h⟩ := h
      obtain ⟨hij, _⟩ := findPair_spec hp
      obtain ⟨hinv2, huniq2⟩ := mergeStep_preserved hinv huniq hij hu
      exact ih hinv2 huniq2 h

/-!
Construction and `add` establish the invariant; reachable states enjoy it.
-/

theorem chunkifyGo_flatten : ∀ (f : Nat) (l : List Particle), l.length ≤ f →
    (chunkifyGo f l).flatten = l := by
  intro f
  induction f with
  | zero =>
    intro l h
    have : l = [] := List.eq_nil_of_length_eq_zero (by omega)
    subst this
    rfl
  | succ f2 ih =>
    intro l h
    cases l with
    | nil => rfl
    | cons x xs =>
      simp only [chunkifyGo, List.flatten_cons]
      rw [ih ((x :: xs).drop nlist_limit)
        (by simp only [List.length_drop, List.length_cons, nlist_limit] at h ⊢; omega)]
      exact List.take_append_drop nlist_limit (x :: xs)

theorem chunkifyGo_ne_nil : ∀ (f : Nat) (l : List Particle) (c : List Particle),
    c ∈ chunkifyGo f l → c ≠ [] := by
  intro f
  induction f with
  | zero => intro l c h; simp [chunkifyGo] at h
  | succ f2 ih =>
    intro l c h
    cases l with
    | nil => simp [chunkifyGo] at h
    | cons x xs =>
      simp only [chunkifyGo, List.mem_cons] at h
      rcases h with rfl | h
      · intro hcon
        rcases List.take_eq_nil_iff.mp hcon with h1 | h1
        · simp [nlist_limit] at h1
        · simp at h1
      · exact ih _ c h

theorem pinit_inv (pids : List Int) : StoreInv (pinit pids) := by
  constructor
  · simp [pinit]
  · intro i c b hic hib
    simp only [pinit] at hic hib
    rw [List.get?_map, hic] at hib
    simp only [Option.map_some', Option.some_inj] at hib
    have hne : c ≠ [] := chunkifyGo_ne_nil _ _ c (List.get?_mem hic)
    exact Or.inr ⟨hne, Or.inr hib.symm⟩

theorem pinit_uniq {pids : List Int} (h : pids.Nodup) : UniqIds (pinit pids) := by
  have hfun : chunkIds = List.map Particle.pid := rfl
  have hflat : (pinit pids).plist.flatMap chunkIds = pids := by
    simp only [pinit, List.flatMap_def, hfun]
    rw [← List.map_flatten, chunkify, chunkifyGo_flatten _ _ (Nat.le_refl _)]
    have hid : Particle.pid ∘ Particle.mk = id := rfl
    rw [List.map_map, hid, List.map_id]
  rw [UniqIds, hflat]
  exact h

theorem padd_inv {s t : PState} (hs : StoreInv s) (ht : StoreInv t) :
    StoreInv (padd s t) := by
  constructor
  · simp [padd, hs.1, ht.1]
  · intro i c b hic hib
    simp only [padd] at hic hib
    by_cases hi : i < s.plist.length
    · rw [List.get?_append hi] at hic
      rw [List.get?_append (by rw [hs.1]; exact hi)] at hib
      exact hs.2 i c b hic hib
    · push_neg at hi
      rw [List.get?_append_right hi] at hic
      rw [List.get?_append_right (by rw [hs.1]; exact hi)] at hib
      rw [hs.1] at hib
      exact ht.2 _ c b hic hib

theorem popGlob_preserved {s t : PState} {gs : List Int} {r : PopResult}
    (hinv : StoreInv s) (huniq : UniqIds s) (h : popGlob s gs = some (t, r)) :
    StoreInv t ∧ UniqIds t := by
  simp only [popGlob, Option.bind_eq_bind, Option.bind_eq_some] at h
  obtain ⟨l, hl, p, hp, m, hm, h⟩ := h
  obtain ⟨u, rem⟩ := p
  dsimp only at hp hm h
  simp only [Option.pure_def, Option.some_inj, Prod.mk.injEq] at h
  obtain ⟨rfl, _⟩ := h
  have hents := groupGlob_entries hl
  have hgo : StoreInv u ∧ UniqIds u := by
    simp only [removeBrackets] at hp
    split at hp
    · exact removeBracketsGo_preserved l hents hinv huniq hp
    · exact absurd hp (by simp)
  exact mergeLoop_preserved _ hgo.1 hgo.2 hm

theorem reach_inv : ∀ {s : PState}, Reach s → StoreInv s ∧ UniqIds s := by
  intro s h
  induction h with
  | con pids hnd => exact ⟨pinit_inv pids, pinit_uniq hnd⟩
  | add s2 t2 hs ht huniq ihs iht => exact ⟨padd_inv ihs.1 iht.1, huniq⟩
  | rem s2 gs t2 hs hrem ih =>
    rw [removeGlob] at hrem
    cases hu : popGlob s2 gs with
    | none => rw [hu] at hrem; simp at hrem
    | some pr =>
      rw [hu] at hrem
      obtain ⟨u, r⟩ := pr
      simp only [Option.map_some', Option.some_inj] at hrem
      subst hrem
      exact popGlob_preserved ih.1 ih.2 hu
  | pop s2 gs t2 r hs hpop ih => exact popGlob_preserved ih.1 ih.2 hpop

theorem foldl_add_counts : ∀ (l : List Bounds) (a : Nat),
    l.foldl (fun x b => x + b.2.2) a = a + (l.map (fun b => b.2.2)).sum := by
  intro l
  induction l with
  | nil => intro a; simp
  | cons b bs ih =>
    intro a
    simp only [List.foldl_cons, List.map_cons, List.sum_cons, ih]
    omega

theorem psize_eq (s : PState) : psize s = (s.bounds.map (fun b => b.2.2)).sum := by
  simp [psize, foldl_add_counts]

theorem counts_eq_lengths {s : PState} (hinv : StoreInv s) :
    s.bounds.map (fun b => b.2.2) = s.plist.map List.length := by
  apply List.ext_get?
  intro n
  rw [List.get?_map, List.get?_map]
  cases hb : s.bounds.get? n with
  | none =>
    cases hc : s.plist.get? n with
    | none => rfl
    | some c =>
      have h1 : s.bounds.length ≤ n := List.get?_eq_none.mp hb
      have h2 : n < s.plist.length := get?_some_lt hc
      rw [hinv.1] at h1
      omega
  | some b =>
    cases hc : s.plist.get? n with
    | none =>
      have h1 : s.plist.length ≤ n := List.get?_eq_none.mp hc
      have h2 : n < s.bounds.length := get?_some_lt hb
      rw [hinv.1] at h2
      omega
    | some c => simp [goodBnd_count (hinv.2 n c b hc hb)]

/-- Amended claim C4: *provided every particle identity in the store is
unique*, after any sequence of successfully completing construction, `add`,
and global-index `pop`/`remove` operations, every chunk's cached summary
count equals the true length of its record array (hence `size` equals the
true total), and each summary's `min_id`/`max_id` bound the identities
present in its chunk.  (With duplicate identities the claim fails — see the
counterexample — because dropping an emptied chunk removes the *first*
summary tuple equal to the dropped chunk's stale summary, which can
misalign the summary list.) -/
theorem C4_store_invariant (s : PState) (h : Reach s) :
    psize s = trueSize s
    ∧ (∀ i c b, s.plist.get? i = some c → s.bounds.get? i = some b → b.2.2 = c.length)
    ∧ (∀ i c b, s.plist.get? i = some c → s.bounds.get? i = some b →
        ∀ x ∈ chunkIds c, b.1 ≤ x ∧ x ≤ b.2.1) := by
  obtain ⟨hinv, huniq⟩ := reach_inv h
  refine ⟨?_, ?_, ?_⟩
  · rw [psize_eq, counts_eq_lengths hinv, trueSize]
  · intro i c b hic hib
    exact goodBnd_count (hinv.2 i c b hic hib)
  · intro i c b hic hib
    exact goodBnd_bound (hinv.2 i c b hic hib)

/-- Witness for C4's amended claim: a freshly constructed two-particle
store, reached via `Reach.con`, then popped at index 0. -/
theorem C4_witness :
    psize (pinit [0, 1]) = trueSize (pinit [0, 1])
    ∧ psize ⟨[[⟨1⟩]], [(1, 1, 1)]⟩ = trueSize ⟨[[⟨1⟩]], [(1, 1, 1)]⟩ :=
  ⟨(C4_store_invariant (pinit [0, 1]) (Reach.con [0, 1] (by decide))).1,
   (C4_store_invariant ⟨[[⟨1⟩]], [(1, 1, 1)]⟩
      (Reach.pop (pinit [0, 1]) [0] ⟨[[⟨1⟩]], [(1, 1, 1)]⟩ (.single ⟨0⟩)
        (Reach.con [0, 1] (by decide)) (by decide))).1⟩

theorem chunkifyGo_empty : ∀ f : Nat, chunkifyGo f [] = [] := by
  intro f
  cases f <;> rfl

theorem pinit_small {pids : List Int} (hne : pids ≠ []) (hle : pids.length ≤ nlist_limit) :
    pinit pids = ⟨[pids.map Particle.mk], [buildBounds (pids.map Particle.mk)]⟩ := by
  have hch : chunkify (pids.map Particle.mk) = [pids.map Particle.mk] := by
    rw [chunkify]
    match hrec : pids.map Particle.mk with
    | [] => exact absurd (by simpa using hrec) hne
    | r :: rs =>
      have hlen : (r :: rs).length ≤ nlist_limit := by
        rw [← hrec]
        simpa using hle
      simp only [List.length_cons, chunkifyGo]
      rw [List.take_of_length_le hlen, List.drop_eq_nil_of_le hlen, chunkifyGo_empty]
  rw [pinit, hch]
  rfl

theorem c4ids_len : c4ids.length = 2048 := by
  rw [c4ids, List.length_map, List.length_range]
  rfl


theorem c4chunk_len : c4chunk.length = 2048 := by
  rw [c4chunk, List.length_map, c4ids_len]

theorem c4bb_count : (buildBounds c4chunk).2.2 = 2048 := by
  simp [buildBounds, c4chunk_len]

theorem c4bb_min_ge : 100 ≤ (buildBounds c4chunk).1 := by
  have hform : (buildBounds c4chunk).1 = (chunkIds c4chunk).foldl min int32max := by
    rw [buildBounds, foldl_pid_min]
  rw [hform]
  have hid : Particle.pid ∘ Particle.mk = id := rfl
  have hcid : chunkIds c4chunk = c4ids := by
    rw [chunkIds, c4chunk, List.map_map, hid, List.map_id]
  have hids : ∀ x ∈ chunkIds c4chunk, (100 : Int) ≤ x := by
    rw [hcid]
    intro x hx
    simp only [c4ids, List.mem_map, List.mem_range] at hx
    obtain ⟨n, _, hn⟩ := hx
    omega
  rcases foldl_min_mem (chunkIds c4chunk) int32max with h | h
  · rw [h]; decide
  · exact hids _ h

theorem c4state_eq : c4state =
    ⟨[[⟨5⟩], c4chunk, [⟨5⟩]], [(5, 5, 1), buildBounds c4chunk, (5, 5, 1)]⟩ := by
  have h5 : pinit [5] = ⟨[[⟨5⟩]], [(5, 5, 1)]⟩ := by decide
  have hbig : pinit c4ids = ⟨[c4chunk], [buildBounds c4chunk]⟩ := by
    have hne : c4ids ≠ [] := by
      intro hcon
      have := c4ids_len
      rw [hcon] at this
      simp at this
    have hle : c4ids.length ≤ nlist_limit := by
      rw [c4ids_len]; simp [nlist_limit]
    rw [pinit_small hne hle]
    rfl
  rw [c4state, h5, hbig]
  rfl

theorem c4group_eval (bigchunk : List Particle) (mn mx : Int) :
    groupGlob ⟨[[⟨5⟩], bigchunk, [⟨5⟩]], [(5, 5, 1), (mn, mx, 2048), (5, 5, 1)]⟩ [2] =
      some [none, none, some [0]] := by
  simp only [groupGlob, groupGlob.go, whileNeg, psize, get_list_array_index_int, walkLoop,
    List.replicate, List.foldl_cons, List.foldl_nil, List.length_cons, List.length_nil,
    List.get?_cons_zero, List.get?_cons_succ, List.set]
  norm_num

theorem c4go_eval (bigchunk : List Particle) (mn mx : Int) :
    removeBracketsGo
      ⟨[[⟨5⟩], bigchunk, [⟨5⟩]], [(5, 5, 1), (mn, mx, 2048), (5, 5, 1)]⟩
      [none, none, some [0]] 0 [] =
      some (⟨[[⟨5⟩], bigchunk], [(mn, mx, 2048), (5, 5, 1)]⟩, [⟨5⟩]) := by
  have hfan : npFancy [(⟨5⟩ : Particle)] [0] = some [⟨5⟩] := by decide
  have hdel : npDelete [(⟨5⟩ : Particle)] [0] = some [] := by decide
  simp only [removeBracketsGo, premove, List.get?_cons_succ, List.get?_cons_zero, hfan,
    hdel, Option.some_bind, Option.bind_eq_bind]
  simp only [List.length_cons, List.length_nil, List.eraseIdx, List.erase_cons_head]
  norm_num

theorem c4merge_eval (bigchunk : List Particle) (mn mx : Int) :
    mergeBrackets ⟨[[⟨5⟩], bigchunk], [(mn, mx, 2048), (5, 5, 1)]⟩ =
      some ⟨[[⟨5⟩], bigchunk], [(mn, mx, 2048), (5, 5, 1)]⟩ := by
  have hrange : List.range 2 = [0, 1] := by decide
  simp only [mergeBrackets, mergeLoop, findPair, findPair.go, List.length_cons,
    List.length_nil, hrange]
  norm_num [nlist_limit]

theorem c4pipeline (bigchunk : List Particle) (mn mx : Int) :
    removeGlob ⟨[[⟨5⟩], bigchunk, [⟨5⟩]], [(5, 5, 1), (mn, mx, 2048), (5, 5, 1)]⟩ [2] =
      some ⟨[[⟨5⟩], bigchunk], [(mn, mx, 2048), (5, 5, 1)]⟩ := by
  simp only [removeGlob, popGlob, c4group_eval, removeBrackets, List.length_cons,
    List.length_nil, Option.some_bind, Option.bind_eq_bind]
  norm_num [c4go_eval, c4merge_eval, shapeResult]

theorem c4final_eq :
    c4final = some ⟨[[⟨5⟩], c4chunk], [buildBounds c4chunk, (5, 5, 1)]⟩ := by
  rcases hbb : buildBounds c4chunk with ⟨mn, mx, cnt⟩
  have hc : cnt = 2048 := by
    have h := c4bb_count
    rw [hbb] at h
    exact h
  subst hc
  simp only [c4final]
  rw [c4state_eq, hbb]
  exact c4pipeline c4chunk mn mx

/-- C4: counterexample. Starting from a store built by `add` from populations
with ids {5}, {100..2147}, {5} (a legal operation sequence per the claim),
removing global index 2 succeeds but leaves the summary list misaligned with
the chunk list: the surviving singleton chunk `[⟨5⟩]` (length 1) is paired
with the big chunk's summary, whose cached count is 2048 and whose min bound
is ≥ 100 — so neither the count/length equality nor the min/max bounding of
the claim holds in the resulting state. -/
theorem C4_misalignment_cex :
    c4final = some ⟨[[⟨5⟩], c4chunk], [buildBounds c4chunk, (5, 5, 1)]⟩ ∧
    countLenOKb ⟨[[⟨5⟩], c4chunk], [buildBounds c4chunk, (5, 5, 1)]⟩ = false ∧
    (buildBounds c4chunk).2.2 = 2048 ∧
    ([(⟨5⟩ : Particle)] : List Particle).length = 1 ∧
    (5 : Int) ∈ chunkIds [(⟨5⟩ : Particle)] ∧
    ¬ (buildBounds c4chunk).1 ≤ 5 := by
  refine ⟨c4final_eq, ?_, c4bb_count, rfl, by decide, ?_⟩
  · rcases hbb : buildBounds c4chunk with ⟨mn, mx, cnt⟩
    have hc : cnt = 2048 := by
      have h := c4bb_count
      rw [hbb] at h
      exact h
    subst hc
    simp [countLenOKb]
  · have h := c4bb_min_ge
    omega

theorem stepEvents_counters (cfg : ExecCfg) (dt endtime : ℚ) (o m c : XQ) (t : ℚ)
    (st : SchedState) :
    (stepEvents cfg dt endtime o m c t st).kernelCalls = st.kernelCalls + 1 ∧
    (stepEvents cfg dt endtime o m c t st).iters = st.iters + 1 ∧
    (stepEvents cfg dt endtime o m c t st).time = t := by
  rw [stepEvents]
  repeat' split
  all_goals simp

theorem maxx_fin_le (x : XQ) (t : ℚ)
    (h : x = XQ.ninf ∨ ∃ q, x = XQ.fin q ∧ q ≤ t) :
    XQ.maxx x (XQ.fin t) = XQ.fin t := by
  rcases h with rfl | ⟨q, rfl, hq⟩
  · rfl
  · by_cases hlt : q < t
    · simp [XQ.maxx, XQ.blt, hlt]
    · have hqt : q = t := le_antisymm hq (not_lt.mp hlt)
      subst hqt
      simp [XQ.maxx, XQ.blt]

theorem targetOf_zero (endtime : ℚ) (st : SchedState)
    (hp : st.nextPrelease = XQ.ninf ∨ ∃ q, st.nextPrelease = XQ.fin q ∧ q ≤ endtime)
    (hi : st.nextInput ≤ endtime)
    (ho : st.nextOutput = XQ.ninf ∨ ∃ q, st.nextOutput = XQ.fin q ∧ q ≤ endtime)
    (hm : st.nextMovie = XQ.ninf ∨ ∃ q, st.nextMovie = XQ.fin q ∧ q ≤ endtime)
    (hc : st.nextCallback = XQ.ninf ∨ ∃ q, st.nextCallback = XQ.fin q ∧ q ≤ endtime) :
    targetOf 0 endtime st = XQ.fin endtime := by
  rw [targetOf, if_neg (by norm_num)]
  rw [maxx_fin_le _ _ hc, maxx_fin_le _ _ hm, maxx_fin_le _ _ ho,
    maxx_fin_le _ _ (Or.inr ⟨st.nextInput, rfl, hi⟩), maxx_fin_le _ _ hp]

theorem loopGo_once (cfg : ExecCfg) (endtime : ℚ) (oX mX cX : XQ) (f : Nat)
    (st : SchedState) (ht : targetOf 0 endtime st = XQ.fin endtime) :
    loopGo cfg 0 endtime oX mX cX (f + 1) st =
      some (stepEvents cfg 0 endtime oX mX cX endtime st) := by
  rw [loopGo, if_pos (Or.inr (Or.inr rfl)), ht]
  simp

theorem subx_class (t : ℚ) (x : XQ)
    (h : x = XQ.pinf ∨ ∃ q, x = XQ.fin q ∧ 0 ≤ q) :
    XQ.subx (XQ.fin t) x = XQ.ninf ∨
      ∃ q, XQ.subx (XQ.fin t) x = XQ.fin q ∧ q ≤ t := by
  rcases h with rfl | ⟨q, rfl, hq⟩
  · left; rfl
  · right
    refine ⟨t + -q, rfl, by linarith⟩

theorem minx_cases (a b : XQ) : XQ.minx a b = a ∨ XQ.minx a b = b := by
  rw [XQ.minx]
  split
  · right; rfl
  · left; rfl

/-- Claim C5 (amended): when the single-shot trigger holds (end time within
1e-5 of the start time, `dt = 0`, or `runtime = 0`), a successful `execute`
invokes the kernel exactly once and the stepping loop runs exactly one
iteration; the final `time` moreover equals the start time provided the
field's `computeTimeChunk` result does not exceed the start time, any given
callback interval is nonnegative, and no repeated release is configured.
Without those extra conditions the `dt = 0` iteration takes the `max` branch
of the target computation, so `time` can jump forward — see the
counterexample. -/
theorem C5_single_shot (cfg : ExecCfg) (t0 : ℚ) (f : Nat) (r : ExecResult)
    (hstart : startTimeOf cfg = some t0)
    (honce : execOnceOf cfg t0 (endtime0Of cfg t0) = true)
    (hrep : cfg.repeatdtArg = none)
    (hctc : cfg.ctc t0 0 ≤ t0)
    (hcb : ∀ c ∈ cfg.callbackdtArg, 0 ≤ c)
    (h : execute cfg (f + 1) = some r) :
    r.kernelCalls = 1 ∧ r.iters = 1 ∧ r.finalTime = t0 := by
  unfold execute at h
  split at h
  · exact Option.noConfusion h
  split at h
  · exact Option.noConfusion h
  split at h
  · exact Option.noConfusion h
  split at h
  · exact Option.noConfusion h
  rw [hstart] at h
  simp only [honce, hrep, if_true] at h
  norm_num at h
  rename_i hv1 hv2 hv3 hv4
  have hall2 := not_not.mp hv2
  have hall3 := not_not.mp hv3
  have hout : ∀ od ∈ cfg.outputdtArg, (0:ℚ) ≤ od := by
    intro od hod
    rw [Option.mem_def] at hod
    rw [hod] at hall2
    simpa [Option.all] using hall2
  have hmov : ∀ md ∈ cfg.moviedtArg, (0:ℚ) ≤ md := by
    intro md hmd
    rw [Option.mem_def] at hmd
    rw [hmd] at hall3
    simpa [Option.all] using hall3
  set oX := (Option.map XQ.fin cfg.outputdtArg).getD XQ.pinf with hoX
  set mX := (Option.map XQ.fin cfg.moviedtArg).getD XQ.pinf with hmX
  set cX := (match cfg.callbackdtArg with
    | some c => XQ.fin c
    | none => (XQ.pinf.minx mX).minx (oX.minx XQ.pinf)) with hcX
  set st0 : SchedState :=
    ({ time := t0, nextPrelease := XQ.ninf, nextOutput := (XQ.fin t0).subx oX,
       nextMovie := (XQ.fin t0).subx mX, nextCallback := (XQ.fin t0).subx cX,
       nextInput := cfg.ctc t0 (qsign 0), kernelCalls := 0, iters := 0,
       releases := 0, outputs := 0, movies := 0, callbacks := 0 } : SchedState) with hst0
  have hoXc : oX = XQ.pinf ∨ ∃ q, oX = XQ.fin q ∧ 0 ≤ q := by
    rw [hoX]
    cases hod : cfg.outputdtArg with
    | none => left; rfl
    | some od =>
      right
      exact ⟨od, by simp, hout od (by simp [hod])⟩
  have hmXc : mX = XQ.pinf ∨ ∃ q, mX = XQ.fin q ∧ 0 ≤ q := by
    rw [hmX]
    cases hmd : cfg.moviedtArg with
    | none => left; rfl
    | some md =>
      right
      exact ⟨md, by simp, hmov md (by simp [hmd])⟩
  have hcXc : cX = XQ.pinf ∨ ∃ q, cX = XQ.fin q ∧ 0 ≤ q := by
    rw [hcX]
    cases hcd : cfg.callbackdtArg with
    | some c =>
      right
      exact ⟨c, rfl, hcb c (by simp [hcd])⟩
    | none =>
      rcases minx_cases (XQ.pinf.minx mX) (oX.minx XQ.pinf) with h3 | h3 <;> rw [h3]
      · rcases minx_cases XQ.pinf mX with h1 | h1 <;> rw [h1]
        · left; rfl
        · exact hmXc
      · rcases minx_cases oX XQ.pinf with h2 | h2 <;> rw [h2]
        · exact hoXc
        · left; rfl
  have hq0 : qsign 0 = 0 := by norm_num [qsign]
  have htarget : targetOf 0 t0 st0 = XQ.fin t0 := by
    apply targetOf_zero
    · left; rfl
    · show cfg.ctc t0 (qsign 0) ≤ t0
      rw [hq0]
      exact hctc
    · exact subx_class t0 oX hoXc
    · exact subx_class t0 mX hmXc
    · exact subx_class t0 cX hcXc
  rw [loopGo_once cfg t0 oX mX cX f st0 htarget] at h
  simp only [Option.some.injEq] at h
  obtain ⟨hk, hi2, htm⟩ := stepEvents_counters cfg 0 t0 oX mX cX t0 st0
  refine ⟨?_, ?_, ?_⟩ <;> rw [← h]
  · exact hk
  · exact hi2
  · exact htm

/-- Claim C5 (counterexample): with start time 0, `dt = 0` and a field
collaborator whose `computeTimeChunk` reports 1, the single-shot run does
invoke the kernel exactly once and stops after one iteration, but the
scheduler's time ends at the input-chunk time 1, not at the start time 0:
the `dt = 0` iteration takes the `max` branch of the target computation, so
`next_input` drags `time` forward. -/
theorem C5_cex :
    startTimeOf c5cfg = some 0 ∧
    execute c5cfg 1 = some ⟨1, 1, 0, 0, 0, 0, 1⟩ ∧
    decide ((1 : ℚ) = 0) = false := by
  refine ⟨by norm_num [startTimeOf, c5cfg], ?_, by decide⟩
  norm_num [execute, c5cfg, startTimeOf, endtime0Of, execOnceOf, qabs, qsign,
    loopGo, targetOf, stepEvents, nearx, XQ.maxx, XQ.minx, XQ.blt, XQ.addx,
    XQ.subx, XQ.negx, XQ.smulx]

/-- Witness for C5's amended theorem at `c5wcfg` (`runtime = 0`, start time
3, collaborators that keep every pending event at or before the start
time): one kernel call, one iteration, final time equal to the start
time 3. -/
theorem C5_witness :
    execute c5wcfg 1 = some ⟨1, 1, 0, 0, 0, 0, 3⟩ ∧
    (⟨1, 1, 0, 0, 0, 0, 3⟩ : ExecResult).kernelCalls = 1 ∧
    (⟨1, 1, 0, 0, 0, 0, 3⟩ : ExecResult).iters = 1 ∧
    (⟨1, 1, 0, 0, 0, 0, 3⟩ : ExecResult).finalTime = 3 := by
  have hexec : execute c5wcfg (0 + 1) = some ⟨1, 1, 0, 0, 0, 0, 3⟩ := by
    norm_num [execute, c5wcfg, startTimeOf, endtime0Of, execOnceOf, qabs, qsign,
      loopGo, targetOf, stepEvents, nearx, XQ.maxx, XQ.minx, XQ.blt, XQ.addx,
      XQ.subx, XQ.negx, XQ.smulx]
  have h := C5_single_shot c5wcfg 3 0 ⟨1, 1, 0, 0, 0, 0, 3⟩
    (by norm_num [startTimeOf, c5wcfg])
    (by norm_num [execOnceOf, endtime0Of, c5wcfg, qsign, qabs])
    rfl
    (by norm_num [c5wcfg])
    (by simp [c5wcfg])
    hexec
  exact ⟨hexec, h.1, h.2.1, h.2.2⟩

/-- Witness for C8 at three concrete stores: an empty store gives `None`, a
one-chunk store gives exactly its records, and the two-chunk store `c3s`
(ids 1,2 / 3,4) gives the first chunk twice — six records for a population
of four. -/
theorem C8_witness :
    particlesProp ⟨[], []⟩ = none ∧
    particlesProp c2s = some [⟨5⟩] ∧
    particlesProp c3s = some [⟨1⟩, ⟨2⟩, ⟨1⟩, ⟨2⟩, ⟨3⟩, ⟨4⟩] ∧
    (particlesProp c3s).map List.length = some 6 ∧
    trueSize c3s = 4 ∧ psize c3s = 4 := by
  obtain ⟨h1, h2, h3⟩ := C8_particles_duplicates_first_chunk
  have ha := h1 ⟨[], []⟩ rfl
  have hb := h2 c2s [⟨5⟩] (by decide)
  have hc := h3 c3s [⟨1⟩, ⟨2⟩] [[⟨3⟩, ⟨4⟩]] (by decide) (by decide)
  refine ⟨ha, hb, ?_, ?_, by decide, by decide⟩
  · rw [hc.1]
    decide
  · rw [hc.2.1]
    decide
